import Mathlib

/-!
Verification of the TextEditor repository's content pipeline.

We shallowly embed the TypeScript sources as executable Lean functions over
`List Char` (a JS string is modelled as its list of characters, one entry per
UTF-16-ish code point; all inputs relevant to the claims are plain code
points).  JavaScript regular-expression passes are modelled by hand-written
scanners that implement the exact leftmost-match/greedy/backtracking semantics
of the specific regexes appearing in the sources; each scanner's doc comment
names the regex it implements.  Scanners that are not structurally recursive
take an explicit fuel argument; the wrappers instantiate the fuel with the
input length, which is always sufficient (the fuel-exhausted branches are
provably unreachable for those wrappers).
-/

namespace TEdit

/-- JavaScript's whitespace class: the characters matched by the regex
class backslash-s and removed by String.prototype.trim (tab, line feed,
vertical tab, form feed, carriage return, space, NBSP, and the Unicode
space separators including the BOM). -/
def isSpace (c : Char) : Bool :=
  let n := c.toNat
  n = 9 || n = 10 || n = 11 || n = 12 || n = 13 || n = 32 || n = 160 ||
  n = 0x1680 || (0x2000 ≤ n && n ≤ 0x200a) || n = 0x2028 || n = 0x2029 ||
  n = 0x202f || n = 0x205f || n = 0x3000 || n = 0xfeff

/-- JavaScript's word class (A-Z, a-z, 0-9 and underscore), used for the
word-boundary assertion in the block-tag regex. -/
def isWordChar (c : Char) : Bool :=
  (0x41 ≤ c.toNat && c.toNat ≤ 0x5a) || (0x61 ≤ c.toNat && c.toNat ≤ 0x7a) ||
  (0x30 ≤ c.toNat && c.toNat ≤ 0x39) || c = Char.ofNat 0x5f

/-- ASCII decimal digit. -/
def isDigit (c : Char) : Bool :=
  0x30 ≤ c.toNat && c.toNat ≤ 0x39

/-- ASCII letter or digit, case-insensitively: the class `[a-z0-9]` under the
`i` flag used by `getDocumentExtension`. -/
def isAlnum (c : Char) : Bool :=
  isDigit c || (0x41 ≤ c.toNat && c.toNat ≤ 0x5a) || (0x61 ≤ c.toNat && c.toNat ≤ 0x7a)

/-- ASCII lower-casing, the effect of String.prototype.toLowerCase on the
ASCII range (every character the claims exercise). -/
def toLowerC (c : Char) : Char :=
  if 0x41 ≤ c.toNat && c.toNat ≤ 0x5a then Char.ofNat (c.toNat + 32) else c

/-- String.prototype.trim: drop JS whitespace from both ends. -/
def jsTrim (s : List Char) : List Char :=
  ((s.dropWhile isSpace).reverse.dropWhile isSpace).reverse

/-- One step of `split` on a whitespace run: the scanner underlying
String.prototype.split with the regex "one or more whitespace characters".
`f` is fuel (instantiated with the input length by `jsSplitWs`). -/
def splitWsF : Nat → List Char → List (List Char)
  | _, [] => [[]]
  | 0, s => [s]
  | f + 1, c :: r =>
    if isSpace c then [] :: splitWsF f (r.dropWhile isSpace)
    else (splitWsF f r).modifyHead (c :: ·)

/-- String.prototype.split on a whitespace-run separator, e.g.
`"a b".split` yields `["a", "b"]`, `" a"` yields `["", "a"]` and
`"a "` yields `["a", ""]`, exactly as in JS. -/
def jsSplitWs (s : List Char) : List (List Char) :=
  splitWsF s.length s

/-- Auxiliary run counter: counts maximal runs of characters satisfying `p`;
the boolean argument records whether the previous character satisfied `p`. -/
def countRunsAux (p : Char → Bool) : List Char → Bool → Nat
  | [], _ => 0
  | c :: r, inRun =>
    if p c then (if inRun then countRunsAux p r true else countRunsAux p r true + 1)
    else countRunsAux p r false

/-- Number of maximal runs of characters satisfying `p`: the length of the
match list of a global regex `[class]+`. -/
def countRuns (p : Char → Bool) (s : List Char) : Nat :=
  countRunsAux p s false

/-- Complement of the whitespace class (the characters words are made
of). -/
def notSpace (c : Char) : Bool :=
  !(isSpace c)

/-- Number of non-whitespace characters in a list. -/
def countNonWs (s : List Char) : Nat :=
  s.countP notSpace

/-- Drop a trailing whitespace run (the right half of
String.prototype.trim). -/
def trimRight (s : List Char) : List Char :=
  (s.reverse.dropWhile isSpace).reverse

/-- Sentence-ending punctuation recognised by `calcContentHealth`:
the class containing period, exclamation mark and question mark. -/
def isSentEnd (c : Char) : Bool :=
  c = Char.ofNat 0x2e || c = Char.ofNat 0x21 || c = Char.ofNat 0x3f

/-- Substring test (String.prototype-style `includes` / an anchorless literal
regex test): does `pat` occur contiguously in the second list? -/
def hasSub (pat : List Char) : List Char → Bool
  | [] => pat.isEmpty
  | c :: r => pat.isPrefixOf (c :: r) || hasSub pat r

/-- `calcContentHealth` from the editor store (src/unnamed/part_001).
Word count is the length of `text.trim().split` on whitespace runs, computed
on the raw content (markup tags are NOT stripped first); sentences is the
number of global matches of a run of `.`, `!`, `?`, floored to 1; the
average-length test `words / sentences < 25` is division of exact values
(for the integer sizes reachable here the JS float division compares
identically), and the structural bonuses test for the substrings of the
corresponding regexes. -/
def calcContentHealth (text : List Char) : Nat :=
  if jsTrim text = [] then 0
  else
    let words := (jsSplitWs (jsTrim text)).length
    let n := countRuns isSentEnd text
    let sentences := if n = 0 then 1 else n
    let hasHeaders := hasSub "<h1".data text || hasSub "<h2".data text ||
      hasSub "<h3".data text
    let hasList := hasSub "<ul".data text || hasSub "<ol".data text
    let hasCode := hasSub "<code".data text || hasSub "<pre".data text
    let score := 40 + (if 100 ≤ words then 20 else 0) + (if 300 ≤ words then 10 else 0) +
      (if words < 25 * sentences then 10 else 0) + (if hasHeaders then 10 else 0) +
      (if hasList then 5 else 0) + (if hasCode then 5 else 0)
    min score 100

/-- `calcReadingTime` from the editor store: the ceiling of
`wordCount / 238`, expressed on naturals. -/
def calcReadingTime (wordCount : Nat) : Nat :=
  (wordCount + 237) / 238

/-- Find the closing angle bracket: given the characters after a `<`, return
the characters after the first `>` if one exists (the suffix left by a match
of the regex "left angle, any non-right-angle characters, right angle"). -/
def findGt (r : List Char) : Option (List Char) :=
  match r.dropWhile (fun c => !(c = Char.ofNat 0x3e)) with
  | c :: u => if c = Char.ofNat 0x3e then some u else none
  | [] => none

/-- The global replacement of every markup tag (regex: left angle bracket,
any run of non-right-angle characters, right angle bracket) by a single
space, as performed by `updateEditorStats`.  Fuel-driven scanner. -/
def tagToSpaceF : Nat → List Char → List Char
  | _, [] => []
  | 0, s => s
  | f + 1, c :: r =>
    if c = Char.ofNat 0x3c then
      match findGt r with
      | some rest => Char.ofNat 0x20 :: tagToSpaceF f rest
      | none => c :: tagToSpaceF f r
    else c :: tagToSpaceF f r

/-- Replace every markup tag in `s` by a single space (the first regex pass
of `updateEditorStats`). -/
def tagToSpace (s : List Char) : List Char :=
  tagToSpaceF s.length s

/-- Global replacement of every whitespace run by a single space
(the second regex pass of `updateEditorStats`).  Fuel-driven scanner. -/
def collapseWsF : Nat → List Char → List Char
  | _, [] => []
  | 0, s => s
  | f + 1, c :: r =>
    if isSpace c then Char.ofNat 0x20 :: collapseWsF f (r.dropWhile isSpace)
    else c :: collapseWsF f r

/-- Replace every whitespace run in `s` by a single space. -/
def collapseWs (s : List Char) : List Char :=
  collapseWsF s.length s

/-- The normalised text `updateEditorStats` derives its statistics from:
tags replaced by spaces, whitespace runs collapsed, then trimmed. -/
def statsText (content : List Char) : List Char :=
  jsTrim (collapseWs (tagToSpace content))

/-- The word count computed by `updateEditorStats`: zero for empty normalised
text, otherwise the length of the whitespace split of the normalised text. -/
def statsWordCount (content : List Char) : Nat :=
  if statsText content = [] then 0 else (jsSplitWs (statsText content)).length

/-- The character count computed by `updateEditorStats`: the length of the
normalised text. -/
def statsCharCount (content : List Char) : Nat :=
  (statsText content).length

/-- A JavaScript object holding Document-shaped fields.  Every field is
optional because plain JS objects may lack any of them: `updateDocument`
spreads a possibly-absent existing entry, so the table can come to hold
objects with missing fields.  For `parentId` the outer `Option` records
whether the field is present and the inner one models the nullable value. -/
structure JsDoc where
  id : Option String := none
  title : Option String := none
  content : Option String := none
  parentId : Option (Option String) := none
  isFolder : Option Bool := none
  createdAt : Option Nat := none
  updatedAt : Option Nat := none
deriving DecidableEq, Repr

/-- JS object spread of two Document-shaped objects: fields of `b` win
when present. -/
def mergeDoc (a b : JsDoc) : JsDoc where
  id := b.id.orElse fun _ => a.id
  title := b.title.orElse fun _ => a.title
  content := b.content.orElse fun _ => a.content
  parentId := b.parentId.orElse fun _ => a.parentId
  isFolder := b.isFolder.orElse fun _ => a.isFolder
  createdAt := b.createdAt.orElse fun _ => a.createdAt
  updatedAt := b.updatedAt.orElse fun _ => a.updatedAt

/-- The document table: a JS record from id to document object, modelled as
an association list in property order (JS objects preserve insertion
order; keys are unique, which the theorems assume where it matters). -/
abbrev Tbl := List (String × JsDoc)

/-- Property lookup on the table. -/
def lookupKey (k : String) (docs : Tbl) : Option JsDoc :=
  (List.find? (fun e => e.1 = k) docs).map (·.2)

/-- The computed-key spread update (spread the old table, then bind key `k`
to `v`): an existing key keeps its position, a fresh key is appended. -/
def setKey (k : String) (v : JsDoc) : Tbl → Tbl
  | [] => [(k, v)]
  | e :: r => if e.1 = k then (k, v) :: r else e :: setKey k v r

/-- `delete docs[k]`: remove the binding of `k` (tables with unique keys;
on such tables removing every binding of `k` is the JS behaviour). -/
def eraseKey (k : String) (docs : Tbl) : Tbl :=
  docs.filter (fun e => !(e.1 = k))

/-- `Object.keys`. -/
def keys (docs : Tbl) : List String :=
  docs.map Prod.fst

/-- The slice of the zustand store state the claims are about. -/
structure EditorState where
  documents : Tbl
  activeDocumentId : Option String := none
  wordCount : Nat := 0
  charCount : Nat := 0
  readingTime : Nat := 1
  contentHealthScore : Nat := 75
deriving DecidableEq

/-- `updateDocument` from the editor store (src/unnamed/part_001): spread the
existing entry (spreading `undefined` when the id is absent, which yields an
empty object), merge the partial update, stamp `updatedAt := now`, and write
the result back under `id`. -/
def updateDocument (now : Nat) (id : String) (updates : JsDoc) (s : EditorState) :
    EditorState :=
  let base := (lookupKey id s.documents).getD {}
  let merged := { mergeDoc base updates with updatedAt := some now }
  { s with documents := setKey id merged s.documents }

/-- `renameDocument`: spread the existing entry, replace `title`, stamp
`updatedAt`. -/
def renameDocument (now : Nat) (id : String) (title : String) (s : EditorState) :
    EditorState :=
  let base := (lookupKey id s.documents).getD {}
  let merged := { base with title := some title, updatedAt := some now }
  { s with documents := setKey id merged s.documents }

/-- The recursive deletion helper inside `deleteDocument`: delete every
current entry whose `parentId` field strictly equals `docId` (recursively),
then delete `docId` itself.  The recursion is fuel-driven; `deleteDocument`
passes enough fuel for every table whose parent references are acyclic, and
the theorems show the fuel-out branch is then unreachable.  Children whose
`id` field is absent are skipped (the theorems only concern well-formed
tables, where every entry carries its own key in `id`). -/
def deleteRecF : Nat → Tbl → String → Tbl
  | 0, docs, _ => docs
  | n + 1, docs, docId =>
    let children := docs.filter (fun e => e.2.parentId = some (some docId))
    let docs2 := children.foldl
      (fun acc c => match c.2.id with
        | some cid => deleteRecF n acc cid
        | none => acc) docs
    eraseKey docId docs2

/-- `deleteDocument` from the editor store: recursively delete the subtree
rooted at `id`, then repoint `activeDocumentId`.  The active pointer is
reassigned (to the first remaining key, or null when none — an empty-string
key would also be replaced by null, mirroring the falsiness test) only when
the directly deleted `id` was active. -/
def deleteDocument (id : String) (s : EditorState) : EditorState :=
  let docs := deleteRecF (s.documents.length + 1) s.documents id
  let remainingIds := keys docs
  { s with
    documents := docs
    activeDocumentId :=
      if s.activeDocumentId = some id then
        (remainingIds.head?).bind (fun k => if k = "" then none else some k)
      else s.activeDocumentId }

/-- `updateEditorStats` from the editor store: recompute the word count,
character count, reading time and content-health score from `content`. -/
def updateEditorStats (content : String) (s : EditorState) : EditorState :=
  { s with
    wordCount := statsWordCount content.data
    charCount := statsCharCount content.data
    readingTime := calcReadingTime (statsWordCount content.data)
    contentHealthScore := calcContentHealth content.data }

/-- String.prototype.split on a literal dot separator, e.g. `"a.b"` yields
`["a", "b"]` and `"a."` yields `["a", ""]`. -/
def splitDot : List Char → List (List Char)
  | [] => [[]]
  | c :: r =>
    if c = Char.ofNat 0x2e then [] :: splitDot r
    else (splitDot r).modifyHead (c :: ·)

/-- `getDocumentExtension` from src/src/lib/documentUtils.ts: trim the title,
require a dot, take the segment after the last dot (`split(".").pop()`),
lower-case it, and keep it only when it is non-empty and purely
alphanumeric. -/
def getDocumentExtension (d : JsDoc) : Option String :=
  let title := jsTrim ((d.title.getD "").data)
  if title.contains (Char.ofNat 0x2e) then
    match (splitDot title).getLast? with
    | none => none
    | some seg =>
      let ext := seg.map toLowerC
      if !ext.isEmpty && ext.all isAlnum then some (String.mk ext) else none
  else none

/-- Case-insensitive literal prefix match: `pat` is given in lowercase; on
success return the input after the matched prefix. -/
def stripPrefixCI : List Char → List Char → Option (List Char)
  | [], s => some s
  | _ :: _, [] => none
  | p :: ps, c :: cs => if toLowerC c = p then stripPrefixCI ps cs else none

/-- The tag-name alternatives of the block-level regex in `htmlToPlainText`,
in the regex's alternation order (`h[1-6]` expanded). -/
def tagNames : List (List Char) :=
  ["p", "div", "h1", "h2", "h3", "h4", "h5", "h6", "li", "tr", "blockquote", "br"].map
    String.data

/-- After a matched tag name: the word-boundary assertion (next character is
not a word character), then any run of non-`>` characters and a closing `>`;
returns the suffix after the `>`. -/
def afterNameTag (rest : List Char) : Option (List Char) :=
  let bOk := match rest with
    | [] => true
    | c :: _ => !(isWordChar c)
  if bOk then findGt rest else none

/-- Try the tag-name alternatives in order against `body` (the characters
after `<` or `</`); on failure of the boundary/closing part the regex engine
falls through to later alternatives, which is what the recursion does (at
most one alternative can prefix-match, so the order is immaterial). -/
def tryTagName (body : List Char) : List (List Char) → Option (List Char)
  | [] => none
  | nm :: more =>
    match stripPrefixCI nm body with
    | some after =>
      match afterNameTag after with
      | some u => some u
      | none => tryTagName body more
    | none => tryTagName body more

/-- Match the block-level-tag regex of `htmlToPlainText` at a position just
after a `<`: an optional `/`, one of the tag names, a word boundary, then
non-`>` characters and `>`. -/
def tryTag (s : List Char) : Option (List Char) :=
  match s with
  | [] => none
  | c :: r =>
    if c = Char.ofNat 0x2f then tryTagName r tagNames else tryTagName (c :: r) tagNames

/-- First regex pass of `htmlToPlainText`: globally replace every block-level
element boundary tag (paragraph, div, headings 1-6, list item, table row,
blockquote, line break; case-insensitive, with any attributes) by a line
feed.  Fuel-driven scanner. -/
def blockTagsF : Nat → List Char → List Char
  | _, [] => []
  | 0, s => s
  | f + 1, c :: r =>
    if c = Char.ofNat 0x3c then
      match tryTag r with
      | some rest => Char.ofNat 0x0a :: blockTagsF f rest
      | none => c :: blockTagsF f r
    else c :: blockTagsF f r

/-- Replace every block-level boundary tag by a line feed. -/
def blockTags (s : List Char) : List Char :=
  blockTagsF s.length s

/-- Match the explicit line-break regex (`br`, optional whitespace, optional
slash, `>`; case-insensitive) at a position just after a `<`. -/
def tryBr (s : List Char) : Option (List Char) :=
  match stripPrefixCI "br".data s with
  | some a =>
    match a.dropWhile isSpace with
    | c :: u =>
      if c = Char.ofNat 0x2f then
        match u with
        | c2 :: u2 => if c2 = Char.ofNat 0x3e then some u2 else none
        | [] => none
      else if c = Char.ofNat 0x3e then some u else none
    | [] => none
  | none => none

/-- Second regex pass of `htmlToPlainText`: globally replace explicit
line-break markers by a line feed.  Fuel-driven scanner. -/
def replaceBrF : Nat → List Char → List Char
  | _, [] => []
  | 0, s => s
  | f + 1, c :: r =>
    if c = Char.ofNat 0x3c then
      match tryBr r with
      | some rest => Char.ofNat 0x0a :: replaceBrF f rest
      | none => c :: replaceBrF f r
    else c :: replaceBrF f r

/-- Replace every explicit line-break marker by a line feed. -/
def replaceBr (s : List Char) : List Char :=
  replaceBrF s.length s

/-- Third regex pass of `htmlToPlainText`: globally delete every remaining
markup tag (left angle, non-right-angle run, right angle). -/
def stripTagsF : Nat → List Char → List Char
  | _, [] => []
  | 0, s => s
  | f + 1, c :: r =>
    if c = Char.ofNat 0x3c then
      match findGt r with
      | some rest => stripTagsF f rest
      | none => c :: stripTagsF f r
    else c :: stripTagsF f r

/-- Delete every remaining markup tag. -/
def stripTags (s : List Char) : List Char :=
  stripTagsF s.length s

/-- Global replacement of the literal entity `&` followed by `ps` with the
single character `rep` (the named-character-reference decoding passes of
`htmlToPlainText`; all of them are case-sensitive). -/
def replaceEntF (ps : List Char) (rep : Char) : Nat → List Char → List Char
  | _, [] => []
  | 0, s => s
  | f + 1, c :: r =>
    if c = Char.ofNat 0x26 && ps.isPrefixOf r then
      rep :: replaceEntF ps rep f (r.drop ps.length)
    else c :: replaceEntF ps rep f r

/-- Replace every occurrence of the entity `&` + `ps` by `rep`. -/
def replaceEnt (ps : List Char) (rep : Char) (s : List Char) : List Char :=
  replaceEntF ps rep s.length s

/-- The decoding pass for the apostrophe references (numeric or named
alternation), replacing either by an apostrophe. -/
def replaceAposF : Nat → List Char → List Char
  | _, [] => []
  | 0, s => s
  | f + 1, c :: r =>
    if c = Char.ofNat 0x26 && "#39;".data.isPrefixOf r then
      Char.ofNat 0x27 :: replaceAposF f (r.drop 4)
    else if c = Char.ofNat 0x26 && "apos;".data.isPrefixOf r then
      Char.ofNat 0x27 :: replaceAposF f (r.drop 5)
    else c :: replaceAposF f r

/-- Replace every apostrophe character reference by an apostrophe. -/
def replaceApos (s : List Char) : List Char :=
  replaceAposF s.length s

/-- Paragraph-gap normalisation of `htmlToPlainText`: globally replace every
run of three or more line feeds by exactly two. -/
def collapseNlF : Nat → List Char → List Char
  | _, [] => []
  | 0, s => s
  | f + 1, c :: r =>
    if c = Char.ofNat 0x0a && r.take 2 = [Char.ofNat 0x0a, Char.ofNat 0x0a] then
      Char.ofNat 0x0a :: Char.ofNat 0x0a :: collapseNlF f (r.dropWhile (· = Char.ofNat 0x0a))
    else c :: collapseNlF f r

/-- Replace every run of three or more line feeds by exactly two. -/
def collapseNl (s : List Char) : List Char :=
  collapseNlF s.length s

/-- JavaScript's LineTerminator class (line feed, carriage return, line
separator, paragraph separator): the positions a multiline `$` anchors
before, and the characters the dot of a non-dotall regex does not match. -/
def isLineTerm (c : Char) : Bool :=
  c.toNat = 10 || c.toNat = 13 || c.toNat = 0x2028 || c.toNat = 0x2029

/-- Index of the last line terminator in a list, if any. -/
def lastNlPos : List Char → Option Nat
  | [] => none
  | c :: r =>
    match lastNlPos r with
    | some q => some (q + 1)
    | none => if isLineTerm c then some 0 else none

/-- The per-line trailing-whitespace deletion of `htmlToPlainText` (global
multiline replacement of a whitespace run anchored at an end of line by
nothing).  At each whitespace position the engine greedily consumes the
whitespace run and backtracks to the longest end that sits at the end of the
input or immediately before a line terminator (line feed, carriage return,
line or paragraph separator); on a match the run prefix is
deleted and scanning resumes at the match end, otherwise the scan advances
one character.  Fuel-driven scanner implementing exactly that. -/
def stripEolF : Nat → List Char → List Char
  | _, [] => []
  | 0, s => s
  | f + 1, c :: r =>
    if isSpace c then
      let tailRun := r.takeWhile isSpace
      let rest := r.dropWhile isSpace
      if rest.isEmpty then []
      else
        match lastNlPos tailRun with
        | some q => stripEolF f (tailRun.drop q ++ rest)
        | none => c :: stripEolF f r
    else c :: stripEolF f r

/-- Delete trailing whitespace of every line, with the exact multiline-regex
semantics described at `stripEolF`. -/
def stripEol (s : List Char) : List Char :=
  stripEolF s.length s

/-- `htmlToPlainText` from src/src/lib/documentUtils.ts: empty or
whitespace-only input yields empty; otherwise block tags and line breaks
become line feeds, remaining tags are dropped, non-breaking spaces and the
five standard references are decoded, long line-feed runs are collapsed to
two, line-trailing whitespace is dropped and the result is trimmed. -/
def htmlToPlainText (html : List Char) : List Char :=
  if jsTrim html = [] then []
  else
    let withNewlines := replaceBr (blockTags html)
    let text := replaceEnt "nbsp;".data (Char.ofNat 0x20) (stripTags withNewlines)
    let decoded :=
      replaceApos (replaceEnt "quot;".data (Char.ofNat 0x22)
        (replaceEnt "gt;".data (Char.ofNat 0x3e)
          (replaceEnt "lt;".data (Char.ofNat 0x3c)
            (replaceEnt "amp;".data (Char.ofNat 0x26) text))))
    jsTrim (stripEol (collapseNl decoded))

/-- The HTML escape map of documentUtils: the five special characters become
entities, everything else is unchanged. -/
def escChar (c : Char) : List Char :=
  if c = Char.ofNat 0x26 then "&amp;".data
  else if c = Char.ofNat 0x3c then "&lt;".data
  else if c = Char.ofNat 0x3e then "&gt;".data
  else if c = Char.ofNat 0x22 then "&quot;".data
  else if c = Char.ofNat 0x27 then "&#39;".data
  else [c]

/-- Global replacement of the five HTML-special characters by their entity
forms (the escaping pass of `plainTextToHtml`). -/
def escapeHtml : List Char → List Char
  | [] => []
  | c :: r => escChar c ++ escapeHtml r

/-- Replace every line feed by an explicit line-break marker (the
within-paragraph pass of `plainTextToHtml`). -/
def brEnc : List Char → List Char
  | [] => []
  | c :: r =>
    if c = Char.ofNat 0x0a then "<br>".data ++ brEnc r else c :: brEnc r

/-- String.prototype.split on a blank-line separator (a run of two or more
line feeds), with JS semantics for leading/trailing separators.
Fuel-driven scanner. -/
def splitParasF : Nat → List Char → List (List Char)
  | _, [] => [[]]
  | 0, s => [s]
  | f + 1, c :: r =>
    if c = Char.ofNat 0x0a && r.head? = some (Char.ofNat 0x0a) then
      [] :: splitParasF f (r.dropWhile (· = Char.ofNat 0x0a))
    else (splitParasF f r).modifyHead (c :: ·)

/-- Split on runs of two or more line feeds. -/
def splitParas (s : List Char) : List (List Char) :=
  splitParasF s.length s

/-- Wrap one paragraph for `plainTextToHtml`: line feeds become line-break
markers, and an empty paragraph is rendered as a bare line-break marker. -/
def wrapPara (p : List Char) : List Char :=
  let withBreaks := brEnc p
  "<p>".data ++ (if withBreaks.isEmpty then "<br>".data else withBreaks) ++ "</p>".data

/-- `plainTextToHtml` from src/src/lib/documentUtils.ts: empty input yields
the single empty paragraph form; otherwise escape, split into paragraphs on
blank-line runs, encode inner line feeds as line-break markers, wrap each
paragraph and concatenate. -/
def plainTextToHtml (t : List Char) : List Char :=
  if t.isEmpty then "<p></p>".data
  else ((splitParas (escapeHtml t)).map wrapPara).flatten

/-! Reference models written from the claims' own wording, used to compare
the code's behaviour against the claimed behaviour where they differ. -/

/-- Modelled from the claim's words (C7): the lowercase segment of the raw,
untrimmed title after the last dot, kept only when purely alphanumeric;
none when the title has no dot. -/
def claimExtensionOf (title : List Char) : Option String :=
  if title.contains (Char.ofNat 0x2e) then
    match (splitDot title).getLast? with
    | none => none
    | some seg =>
      let ext := seg.map toLowerC
      if !ext.isEmpty && ext.all isAlnum then some (String.mk ext) else none
  else none

/-- Modelled from the claim's words (C5 and C6): the tag-stripped (tags
removed, not replaced by spaces), whitespace-collapsed, trimmed text. -/
def claimStrippedText (content : List Char) : List Char :=
  jsTrim (collapseWs (stripTags content))

/-- Modelled from the claim's words (C6): word count over the tag-stripped
text. -/
def claimStrippedWordCount (content : List Char) : Nat :=
  if claimStrippedText content = [] then 0
  else (jsSplitWs (claimStrippedText content)).length

/-- Modelled from the claim's words (C5): the content-health score with the
word count taken over the tag-stripped, whitespace-collapsed text. -/
def claimC5Score (text : List Char) : Nat :=
  if jsTrim text = [] then 0
  else
    let words := claimStrippedWordCount text
    let n := countRuns isSentEnd text
    let sentences := if n = 0 then 1 else n
    let hasHeaders := hasSub "<h1".data text || hasSub "<h2".data text ||
      hasSub "<h3".data text
    let hasList := hasSub "<ul".data text || hasSub "<ol".data text
    let hasCode := hasSub "<code".data text || hasSub "<pre".data text
    let score := 40 + (if 100 ≤ words then 20 else 0) + (if 300 ≤ words then 10 else 0) +
      (if words < 25 * sentences then 10 else 0) + (if hasHeaders then 10 else 0) +
      (if hasList then 5 else 0) + (if hasCode then 5 else 0)
    min score 100

/-! Predicates used to state the conversion claims. -/

/-- The five HTML-special characters escaped by `plainTextToHtml`. -/
def isHtmlSpecial (c : Char) : Bool :=
  c = Char.ofNat 0x26 || c = Char.ofNat 0x3c || c = Char.ofNat 0x3e ||
  c = Char.ofNat 0x22 || c = Char.ofNat 0x27

/-- No whitespace character directly before a line terminator (line
terminators are themselves whitespace, so in particular no two consecutive
line terminators and no blank-line run). -/
def nlCleanB : List Char → Bool
  | a :: b :: r =>
    (!(isSpace a && isLineTerm b)) && nlCleanB (b :: r)
  | _ => true

/-- Whitespace-hygienic plain text: no HTML-special characters, no line
ending in whitespace (no whitespace directly before a line terminator), and
the text neither starts nor ends with whitespace. -/
def cleanText (t : List Char) : Bool :=
  t.all (fun c => !(isHtmlSpecial c)) && nlCleanB t &&
  (match t.head? with
   | some c => !(isSpace c)
   | none => true) &&
  (match t.getLast? with
   | some c => !(isSpace c)
   | none => true)

/-- Every left angle bracket in the list begins one of the three markers
produced by `plainTextToHtml` (paragraph open, paragraph close, line
break). -/
def ltOnlyMarkers : List Char → Bool
  | [] => true
  | c :: r =>
    if c = Char.ofNat 0x3c then
      match r with
      | 'p' :: '>' :: r2 => ltOnlyMarkers r2
      | '/' :: 'p' :: '>' :: r2 => ltOnlyMarkers r2
      | 'b' :: 'r' :: '>' :: r2 => ltOnlyMarkers r2
      | _ => false
    else ltOnlyMarkers r

/-! Relations used to state the cascade-delete claim. -/

/-- The effective parent of an id in a table: the value of the entry's
`parentId` field when the id is bound and the field holds a non-null id. -/
def parentEff (docs : Tbl) (x : String) : Option String :=
  match lookupKey x docs with
  | some d =>
    match d.parentId with
    | some (some p) => some p
    | _ => none
  | none => none

/-- One parent step: `b` is the effective parent of `a`. -/
def stepRel (docs : Tbl) (a b : String) : Prop :=
  parentEff docs a = some b

/-- The parent chain of `x` leads to `y` (reflexive-transitive closure of
the parent step), i.e. `x` is `y` or a descendant of `y`. -/
def reaches (docs : Tbl) (x y : String) : Prop :=
  Relation.ReflTransGen (stepRel docs) x y

/-- Bounded executable parent-chain test: does the chain from `x` hit `y`
within the given number of steps? -/
def chainMemB (docs : Tbl) : Nat → String → String → Bool
  | 0, x, y => x = y
  | n + 1, x, y =>
    x = y ||
      match parentEff docs x with
      | some p => chainMemB docs n p y
      | none => false

/-- Executable descendant-or-self test; on well-formed acyclic tables it
agrees with `reaches` (proved below). -/
def reachesB (docs : Tbl) (x y : String) : Bool :=
  chainMemB docs docs.length x y

/-- Well-formed table: unique keys, and every entry's `id` field holds its
own key. -/
def WfTable (docs : Tbl) : Prop :=
  (keys docs).Nodup ∧ ∀ e ∈ docs, e.2.id = some e.1

/-- The parent references are acyclic: no id's parent chain returns to it. -/
def AcyclicT (docs : Tbl) : Prop :=
  ∀ x, ¬ Relation.TransGen (stepRel docs) x x

/-- Iterated effective parent: the node reached after exactly `n` parent
steps, when every intermediate node has an effective parent. -/
def iterParent (docs : Tbl) : Nat → String → Option String
  | 0, x => some x
  | n + 1, x =>
    match parentEff docs x with
    | some p => iterParent docs n p
    | none => none

/-! The AI-provider call layer (`generateReply`, src/unnamed/part_000).
The network is abstracted as an oracle giving the outcome of each successive
provider call: either a thrown error with a message, or a response whose
text/content field may be null.  The model returns the settled result
together with the number of provider calls made and the list of sleep
durations (in seconds) performed, which is what the retry claims are
about. -/

/-- The `AIProvider` union type of the settings store. -/
inductive AIProvider where
  | openai
  | gemini
deriving DecidableEq

/-- Outcome of one provider call: a rejection with an error message, or a
response whose content may be null/undefined. -/
inductive ProviderResult where
  | ok (text : Option String)
  | err (msg : String)
deriving DecidableEq

/-- Observable outcome of running `generateReply`: the returned text or the
final error, the number of provider calls performed, and the seconds slept
between calls. -/
instance : DecidableEq (Except String String) := fun a b =>
  match a, b with
  | .ok x, .ok y =>
    if h : x = y then isTrue (by rw [h])
    else isFalse (by intro hh; cases hh; exact h rfl)
  | .error x, .error y =>
    if h : x = y then isTrue (by rw [h])
    else isFalse (by intro hh; cases hh; exact h rfl)
  | .ok _, .error _ => isFalse (by intro h; cases h)
  | .error _, .ok _ => isFalse (by intro h; cases h)

structure AIRun where
  result : Except String String
  calls : Nat
  sleeps : List Nat
deriving DecidableEq

/-- Numeric value of a digit run. -/
def digitsToNat (ds : List Char) : Nat :=
  ds.foldl (fun a c => a * 10 + (c.toNat - 0x30)) 0

/-- Ceiling of the decimal number with integer digits `ds` and fraction
digits `fs` (the effect of Math.ceil on the parsed value; exact for every
magnitude that matters here since the result is capped at 60). -/
def ceilDigits (ds fs : List Char) : Nat :=
  digitsToNat ds + (if fs.any (fun c => !(c = Char.ofNat 0x30)) then 1 else 0)

/-- Match the first retry-delay regex of `generateReply` (case-insensitive
literal "retry in ", a decimal number with optional fraction, then "s") at
one position; returns the ceiled number of seconds. -/
def tryRetryInAt (s : List Char) : Option Nat :=
  match stripPrefixCI "retry in ".data s with
  | none => none
  | some rest =>
    let ds := rest.takeWhile isDigit
    if ds.isEmpty then none
    else
      match rest.drop ds.length with
      | c :: r1 =>
        if c = Char.ofNat 0x2e then
          let fs := r1.takeWhile isDigit
          if fs.isEmpty then none
          else
            match r1.drop fs.length with
            | c2 :: _ => if toLowerC c2 = Char.ofNat 0x73 then some (ceilDigits ds fs) else none
            | [] => none
        else if toLowerC c = Char.ofNat 0x73 then some (digitsToNat ds) else none
      | [] => none

/-- Leftmost match of the first retry-delay regex. -/
def findRetryInF : Nat → List Char → Option Nat
  | _, [] => none
  | 0, _ => none
  | f + 1, c :: r =>
    match tryRetryInAt (c :: r) with
    | some v => some v
    | none => findRetryInF f r

/-- Leftmost match of the first retry-delay regex over the whole message. -/
def findRetryIn (s : List Char) : Option Nat :=
  findRetryInF s.length s

/-- Match the second retry-delay regex (case-insensitive literal
"retryDelay", a lazy non-line-terminator gap, then a digit run) at one
position. -/
def tryRetryDelayAt (s : List Char) : Option Nat :=
  match stripPrefixCI "retrydelay".data s with
  | none => none
  | some rest =>
    let gap := rest.takeWhile (fun c => !(isDigit c || isLineTerm c))
    match rest.drop gap.length with
    | c :: _ =>
      if isDigit c then some (digitsToNat ((rest.drop gap.length).takeWhile isDigit))
      else none
    | [] => none

/-- Leftmost match of the second retry-delay regex. -/
def findRetryDelayF : Nat → List Char → Option Nat
  | _, [] => none
  | 0, _ => none
  | f + 1, c :: r =>
    match tryRetryDelayAt (c :: r) with
    | some v => some v
    | none => findRetryDelayF f r

/-- Leftmost match of the second retry-delay regex over the whole message. -/
def findRetryDelay (s : List Char) : Option Nat :=
  findRetryDelayF s.length s

/-- `getRetrySeconds` of `generateReply`: the provider-suggested delay from
either regex, ceiled and capped at 60 seconds, defaulting to 20. -/
def getRetrySeconds (msg : List Char) : Nat :=
  match findRetryIn msg with
  | some v => min v 60
  | none =>
    match findRetryDelay msg with
    | some v => min v 60
    | none => 20

/-- `isQuotaError` of `generateReply`: the rate-limit-class markers
(case-sensitive substring tests, as in the source). -/
def isQuotaError (msg : List Char) : Bool :=
  hasSub "429".data msg || hasSub "RESOURCE_EXHAUSTED".data msg ||
  hasSub "quota".data msg || hasSub "rate limit".data msg

/-- The terminal rate-limit error message built after a failed retry. -/
def rateLimitMsg (sec : Nat) : String :=
  "Gemini rate limit exceeded. Please try again in about " ++ toString sec ++
  " seconds, or check your quota and billing at " ++
  "https://ai.google.dev/gemini-api/docs/rate-limits"

/-- One `doGeminiCall`: a rejection keeps its message, a null text becomes
the thrown empty-response error, otherwise the text is returned
(including the empty string). -/
def geminiCallMsg : ProviderResult → Except String String
  | .ok (some t) => .ok t
  | .ok none => .error "Empty or invalid response from Gemini."
  | .err m => .error m

/-- The OpenAI block of `generateReply`: a single provider call, no retry;
null content becomes the empty-response error, a rejection propagates, any
string content (including the empty string) is returned. -/
def openaiReply (oracle : Nat → ProviderResult) : AIRun :=
  match oracle 0 with
  | .err m => { result := .error m, calls := 1, sleeps := [] }
  | .ok none =>
    { result := .error "Empty or invalid response from OpenAI.", calls := 1, sleeps := [] }
  | .ok (some t) => { result := .ok t, calls := 1, sleeps := [] }

/-- The Gemini block of `generateReply`: one call; on a rate-limit-class
failure sleep `getRetrySeconds` of the first error message and retry exactly
once; a second rate-limit-class failure becomes the terminal
`rateLimitMsg`, any other second error propagates. -/
def geminiReply (oracle : Nat → ProviderResult) : AIRun :=
  match geminiCallMsg (oracle 0) with
  | .ok t => { result := .ok t, calls := 1, sleeps := [] }
  | .error m =>
    if isQuotaError m.data then
      let d := getRetrySeconds m.data
      match geminiCallMsg (oracle 1) with
      | .ok t => { result := .ok t, calls := 2, sleeps := [d] }
      | .error m2 =>
        if isQuotaError m2.data then
          { result := .error (rateLimitMsg (getRetrySeconds m2.data)), calls := 2,
            sleeps := [d] }
        else { result := .error m2, calls := 2, sleeps := [d] }
    else { result := .error m, calls := 1, sleeps := [] }

/-- `generateReply`: a blank API key fails immediately with the
configuration error before any provider call; otherwise dispatch to the
provider block. -/
def generateReply (provider : AIProvider) (apiKey : String)
    (oracle : Nat → ProviderResult) : AIRun :=
  if jsTrim apiKey.data = [] then
    { result := .error "API key is required.", calls := 0, sleeps := [] }
  else
    match provider with
    | .openai => openaiReply oracle
    | .gemini => geminiReply oracle

/-! The debounced-save protocol of the editing surfaces (`debouncedSave` in
TiptapEditor and PlainTextEditor, src/unnamed/part_005).  Host timers are
modelled explicitly: the surface keeps the list of scheduled-and-still-alive
timers (`setTimeout` appends one, `clearTimeout` removes by id) plus the
`saveTimeout` ref holding the id of the most recently scheduled one. -/

/-- A scheduled debounce timer: its host id, its due time (schedule time
plus the fixed 600ms delay) and the surface content captured by its
callback. -/
structure STimer where
  tid : Nat
  fireAt : Nat
  content : String
deriving DecidableEq

/-- The timer state of one editing surface. -/
structure Surface where
  timers : List STimer
  ref : Option Nat := none
  nextId : Nat := 0
deriving DecidableEq

/-- `clearTimeout`: remove the timer with the given id (a no-op if it
already fired or was cleared). -/
def clearTimeoutS (tid : Nat) (s : Surface) : Surface :=
  { s with timers := s.timers.filter (fun t => !(t.tid = tid)) }

/-- `debouncedSave`: clear the timer referenced by `saveTimeout` if any,
then schedule a new save of `content` for 600ms from now and remember its
id. -/
def debouncedSave (now : Nat) (content : String) (s : Surface) : Surface :=
  let s1 :=
    match s.ref with
    | some tid => clearTimeoutS tid s
    | none => s
  { timers := s1.timers ++ [{ tid := s1.nextId, fireAt := now + 600, content := content }],
    ref := some s1.nextId,
    nextId := s1.nextId + 1 }

/-- An editing surface together with the store it saves into and the
active-document id captured by the save callbacks (plus whether the surface
is the plain-text one, whose callback also recomputes the statistics). -/
structure EditorSession where
  surface : Surface
  store : EditorState
  activeDocumentId : Option String
  plainMode : Bool := false
deriving DecidableEq

/-- Run one timer's callback: write the captured content into the store via
`updateDocument` when an active id was captured (and recompute statistics in
plain-text mode). -/
def fireCallback (t : STimer) (sess : EditorSession) : EditorSession :=
  match sess.activeDocumentId with
  | some id =>
    let st := updateDocument t.fireAt id { content := some t.content } sess.store
    { sess with store := if sess.plainMode then updateEditorStats t.content st else st }
  | none => sess

/-- Events of the editing surface: an edit of the surface content at a given
time, or the host firing the due timer. -/
inductive SEv where
  | edit (now : Nat) (content : String)
  | fireDue
deriving DecidableEq

/-- One event step: an edit runs `debouncedSave`; `fireDue` pops the pending
timer (there is at most one, as proved below) and runs its callback. -/
def stepEv (sess : EditorSession) : SEv → EditorSession
  | .edit now c => { sess with surface := debouncedSave now c sess.surface }
  | .fireDue =>
    match sess.surface.timers with
    | [] => sess
    | t :: rest => fireCallback t { sess with surface := { sess.surface with timers := rest } }

/-- Run a sequence of surface events. -/
def runEvents (init : EditorSession) (evs : List SEv) : EditorSession :=
  evs.foldl stepEv init

/-- The surface invariant: at most one pending debounce timer, and the
`saveTimeout` ref points at it. -/
def SurfInv (s : Surface) : Prop :=
  s.timers.length ≤ 1 ∧ ∀ t ∈ s.timers, s.ref = some t.tid ∧ t.tid < s.nextId

/-! Concrete inputs used by the counterexample and witness theorems. -/

/-- A two-document table: `b` is a child of `a`. -/
def exTbl : Tbl :=
  [("a", { id := some "a", parentId := some none }),
   ("b", { id := some "b", parentId := some (some "a") })]

/-- State whose active document `b` is a descendant (not the root) of the
deletion target `a`. -/
def exStateChildActive : EditorState :=
  { documents := exTbl, activeDocumentId := some "b" }

/-- State whose active document is the deletion target itself. -/
def exStateSelfActive : EditorState :=
  { documents := exTbl, activeDocumentId := some "a" }

/-- Content with 25 whitespace-separated raw tokens but a single word of
visible text: one word followed by 24 italic-open tags. -/
def exHealthContent : List Char :=
  ("w" ++ String.join (List.replicate 24 " <i>")).data

/-- A 350-word paragraph-wrapped body with one-word sentences and one
heading. -/
def exBigContent : List Char :=
  "<h2>T</h2><p>".data ++ (List.replicate 349 "go. ".data).flatten ++ "go.</p>".data

/-- The amended reference model for the extension rule: the lowercase
segment of the *trimmed* title after its last dot (computed here
independently, as the reversed longest dot-free suffix), kept only when
non-empty and purely alphanumeric. -/
def amendedExtensionOf (title : List Char) : Option String :=
  let t := jsTrim title
  if t.contains (Char.ofNat 0x2e) then
    let seg := ((t.reverse.takeWhile (fun c => !(c = Char.ofNat 0x2e))).reverse).map toLowerC
    if !seg.isEmpty && seg.all isAlnum then some (String.mk seg) else none
  else none

/-- A four-document forest used by the cascade-delete witness: root `a`,
its child `b`, grandchild `c` under `b`, and an unrelated root `d`. -/
def exC3Tbl : Tbl :=
  [("a", { id := some "a", parentId := some none }),
   ("b", { id := some "b", parentId := some (some "a") }),
   ("c", { id := some "c", parentId := some (some "b") }),
   ("d", { id := some "d", parentId := some none })]

/-- State holding the cascade-delete witness forest. -/
def exC3State : EditorState :=
  { documents := exC3Tbl, activeDocumentId := some "a" }

/-- A depth rank for the witness forest, used to discharge acyclicity. -/
def exC3Rank (x : String) : Nat :=
  if x = "b" then 1 else if x = "c" then 2 else 0

/-- A concrete editing session used by the debounce witness: one document
`d`, which is active, an idle surface. -/
def sessInit : EditorSession :=
  { surface := { timers := [], ref := none, nextId := 0 },
    store := { documents := [("d", { id := some "d" })] },
    activeDocumentId := some "d" }

/-!  Theorems.  -/

/-- C1: the spec states that `updateDocument` on an id absent from the table
leaves the table completely unchanged (a silently ignored no-op, so that a
late debounced save after a delete is harmless).  The code violates this:
spreading the absent entry spreads `undefined`, so a fresh ghost entry
holding only the update fields and the new timestamp is inserted under the
missing id.  Evaluated here at the failing input: an empty table updated
under the id "doc1". -/
theorem C1_missing_id_update_creates_entry :
    lookupKey "doc1" ([] : Tbl) = none ∧
    (updateDocument 5 "doc1" { content := some "hi" } { documents := [] }).documents
      = [("doc1", { content := some "hi", updatedAt := some 5 })] :=
  ⟨rfl, rfl⟩

/-- C4 counterexample: deleting `a` in a table where the active document `b`
is a child of `a` removes `b` from the table (the table becomes empty) but
leaves `activeDocumentId` pointing at the removed `b`; the active pointer is
then neither null nor a document still present, refuting the claim. -/
theorem C4_counterexample :
    (deleteDocument "a" exStateChildActive).documents = [] ∧
    (deleteDocument "a" exStateChildActive).activeDocumentId = some "b" :=
  ⟨rfl, rfl⟩

/-- C7 counterexample: for the title "a.txt " (trailing space) the code
trims the title first and returns "txt", while the claim's reading (the
segment of the title after the last dot, required purely alphanumeric)
yields none because that segment is "txt " with a space. -/
theorem C7_counterexample :
    getDocumentExtension { title := some "a.txt " } = some "txt" ∧
    claimExtensionOf "a.txt ".data = none :=
  ⟨rfl, rfl⟩

/-- C5 counterexample: on one visible word followed by 24 italic-open tags,
`calcContentHealth` counts 25 raw whitespace-separated tokens (so the
average-sentence-length bonus is withheld: 25 words / 1 sentence) and scores
40, whereas the claimed formula (word count over the tag-stripped text,
here a single word) scores 50. -/
theorem C5_counterexample :
    calcContentHealth exHealthContent = 40 ∧ claimC5Score exHealthContent = 50 := by
  constructor <;> decide

/-- C6 counterexample: for the content "a<b>c" the code replaces the tag by
a space and reports 2 words and 3 characters, whereas the claimed
tag-stripping (removal) yields the text "ac" with 1 word and 2
characters. -/
theorem C6_counterexample :
    (updateEditorStats "a<b>c" { documents := [] }).wordCount = 2 ∧
    (updateEditorStats "a<b>c" { documents := [] }).charCount = 3 ∧
    claimStrippedWordCount "a<b>c".data = 1 ∧
    (claimStrippedText "a<b>c".data).length = 2 := by
  refine ⟨rfl, rfl, rfl, rfl⟩

/-- C8 counterexample: (i) an OpenAI rate-limit-class failure is not
retried — the call fails immediately after a single provider call with the
original error, against the claimed one-retry policy; (ii) a Gemini
response whose content is the empty string is returned as a success, not
treated as failure (only null/undefined content is). -/
theorem C8_counterexample :
    (generateReply .openai "k" (fun _ => .err "429 rate limit")).calls = 1 ∧
    (generateReply .openai "k" (fun _ => .err "429 rate limit")).result
      = .error "429 rate limit" ∧
    (generateReply .gemini "k" (fun _ => .ok (some ""))).result = .ok "" := by
  refine ⟨rfl, rfl, rfl⟩

/-- C2 counterexample: the text "a " (trailing space) contains no
HTML-special character and no blank-line run, yet the round trip returns
"a": the conversion to plain text strips the line-trailing whitespace, so
the claimed round-trip identity fails. -/
theorem C2_counterexample :
    ("a ".data.all (fun c => !(isHtmlSpecial c))) = true ∧
    hasSub [Char.ofNat 0x0a, Char.ofNat 0x0a] "a ".data = false ∧
    htmlToPlainText (plainTextToHtml "a ".data) = "a".data ∧
    ¬ htmlToPlainText (plainTextToHtml "a ".data) = "a ".data := by
  refine ⟨by decide, by decide, by decide, by decide⟩

/-- C4, amended: `deleteDocument` repoints the active pointer only when the
directly deleted id was the active one, and then the new pointer is null or
an id still present in the remaining table; when any other document was
active (even one removed as a descendant of the deleted id) the pointer is
left untouched. -/
theorem C4_amended (s : EditorState) (id : String) :
    (s.activeDocumentId = some id →
      (deleteDocument id s).activeDocumentId = none ∨
      ∃ k, (deleteDocument id s).activeDocumentId = some k ∧
        k ∈ keys (deleteDocument id s).documents) ∧
    (s.activeDocumentId ≠ some id →
      (deleteDocument id s).activeDocumentId = s.activeDocumentId) := by
  constructor
  · intro h
    unfold deleteDocument
    simp only [h, if_pos, keys]
    cases hh : (deleteRecF (s.documents.length + 1) s.documents id).map Prod.fst |>.head? with
    | none => left; simp [hh]
    | some k =>
      by_cases hk : k = ""
      · left; simp [hh, hk]
      · right
        refine ⟨k, by simp [hh, hk], ?_⟩
        exact List.mem_of_mem_head? (by simp [hh])
  · intro h
    unfold deleteDocument
    simp [h]

/-- Witness for the amended C4 at a concrete state: the deleted id `a` was
active, and afterwards the pointer is null or a still-present id (here the
cascade leaves an empty table, so it is null). -/
theorem C4_amended_witness :
    exStateSelfActive.activeDocumentId = some "a" ∧
    ((deleteDocument "a" exStateSelfActive).activeDocumentId = none ∨
      ∃ k, (deleteDocument "a" exStateSelfActive).activeDocumentId = some k ∧
        k ∈ keys (deleteDocument "a" exStateSelfActive).documents) :=
  ⟨rfl, (C4_amended exStateSelfActive "a").1 rfl⟩

/-! Auxiliary lemmas about run counting, splitting, trimming and
collapsing, used for the statistics claims. -/

theorem countRunsAux_true_eq (p : Char → Bool) :
    ∀ l : List Char, countRunsAux p l true = countRunsAux p (l.dropWhile p) false := by
  intro l
  induction l with
  | nil => rfl
  | cons c r ih =>
    by_cases h : p c
    · simp [countRunsAux, h, List.dropWhile, ih]
    · simp [countRunsAux, h, List.dropWhile]

theorem countRunsAux_dropWhile_not (p q : Char → Bool) (hq : ∀ c, q c = !p c) :
    ∀ l : List Char, countRunsAux p (l.dropWhile q) false = countRunsAux p l false := by
  intro l
  induction l with
  | nil => rfl
  | cons c r ih =>
    by_cases h : p c
    · have hqc : q c = false := by rw [hq, h]; rfl
      simp [List.dropWhile, hqc]
    · have hpc : p c = false := by revert h; cases p c <;> simp
      have hqc : q c = true := by rw [hq, hpc]; rfl
      simp [List.dropWhile, hqc, countRunsAux, hpc, ih]

theorem countRunsAux_all_not (p : Char → Bool) :
    ∀ (l : List Char) (b : Bool), (∀ c ∈ l, p c = false) → countRunsAux p l b = 0 := by
  intro l
  induction l with
  | nil => intro b _; rfl
  | cons c r ih =>
    intro b h
    have hc : p c = false := h c (by simp)
    simp [countRunsAux, hc]
    exact ih false (fun x hx => h x (by simp [hx]))

theorem dropWhile_head_not (p : Char → Bool) :
    ∀ (l l' : List Char) (c : Char), l.dropWhile p = c :: l' → p c = false := by
  intro l
  induction l with
  | nil => intro l' c h; cases h
  | cons a r ih =>
    intro l' c h
    by_cases ha : p a
    · exact ih l' c (by simpa [List.dropWhile, ha] using h)
    · rw [List.dropWhile_cons_of_neg (by simpa using ha)] at h
      cases h
      simpa using ha

theorem len_dropWhile_le (p : Char → Bool) (l : List Char) :
    (l.dropWhile p).length ≤ l.length :=
  (List.dropWhile_sublist p).length_le

theorem splitWsF_length :
    ∀ (f : Nat) (s : List Char), s.length ≤ f →
      (splitWsF f s).length = countRuns isSpace s + 1 := by
  intro f
  induction f with
  | zero =>
    intro s hs
    have : s = [] := by cases s <;> simp_all
    subst this
    rfl
  | succ f ih =>
    intro s hs
    cases s with
    | nil => rfl
    | cons c r =>
      simp only [splitWsF]
      by_cases h : isSpace c
      · have h1 : (r.dropWhile isSpace).length ≤ f := by
          have := len_dropWhile_le isSpace r
          simp at hs
          omega
        simp only [h, if_pos]
        rw [List.length_cons, ih _ h1]
        have : countRuns isSpace (c :: r) = countRuns isSpace (r.dropWhile isSpace) + 1 := by
          simp [countRuns, countRunsAux, h, countRunsAux_true_eq]
        omega
      · have h1 : r.length ≤ f := by simp at hs; omega
        simp only [h, Bool.false_eq_true, if_false]
        rw [List.length_modifyHead, ih _ h1]
        have : countRuns isSpace (c :: r) = countRuns isSpace r := by
          simp [countRuns, countRunsAux, h]
        omega

theorem runs_alt_fuel :
    ∀ (n : Nat) (t : List Char), t.length ≤ n → t ≠ [] →
      (∀ c, t.head? = some c → isSpace c = false) →
      (∀ c, t.getLast? = some c → isSpace c = false) →
      countRuns isSpace t + 1 = countRuns notSpace t := by
  intro n
  induction n with
  | zero =>
    intro t ht hne _ _
    exact absurd (List.length_eq_zero.mp (Nat.le_zero.mp ht)) hne
  | succ n ih =>
    intro t ht hne hhd hlast
    match t, hne with
    | c :: r, _ =>
      have hc : isSpace c = false := hhd c rfl
      cases r with
      | nil => simp [countRuns, countRunsAux, hc, notSpace]
      | cons d r2 =>
        by_cases hd : isSpace d
        · set r' := r2.dropWhile isSpace with hr'
          have hlt : (c :: d :: r2).getLast? = (d :: r2).getLast? :=
            List.getLast?_cons_cons ..
          have hdw : (d :: r2).dropWhile isSpace = r' := by
            rw [List.dropWhile_cons_of_pos (by simpa using hd)]
          have hne' : r' ≠ [] := by
            intro h0
            have hall : ∀ x ∈ d :: r2, isSpace x := by
              apply List.dropWhile_eq_nil_iff.mp
              rw [hdw, h0]
            obtain ⟨lc, hlc⟩ : ∃ lc, (d :: r2).getLast? = some lc := by
              cases hgl : (d :: r2).getLast? with
              | none => exact absurd (List.getLast?_eq_none_iff.mp hgl) (by simp)
              | some lc => exact ⟨lc, rfl⟩
            have h1 : isSpace lc = false := hlast lc (by rw [hlt]; exact hlc)
            have h2 : lc ∈ d :: r2 := by
              have h3 : (d :: r2).reverse.head? = some lc := by
                rw [← List.getLast?_eq_head?_reverse]; exact hlc
              have hm : lc ∈ (d :: r2).reverse :=
                List.mem_of_mem_head? (by rw [h3]; rfl)
              exact List.mem_reverse.mp hm
            rw [hall lc h2] at h1
            cases h1
          obtain ⟨x, r'', hx⟩ : ∃ x r'', r' = x :: r'' := by
            cases hcase : r' with
            | nil => exact absurd hcase hne'
            | cons a b => exact ⟨a, b, rfl⟩
          have hxns : isSpace x = false := dropWhile_head_not isSpace r2 r'' x (by rw [← hr', hx])
          have hlast'' : ∀ c', r'.getLast? = some c' → isSpace c' = false := by
            intro c' hc'
            apply hlast
            rw [hlt, ← List.takeWhile_append_dropWhile (p := isSpace) (l := d :: r2), hdw,
              List.getLast?_append_of_ne_nil _ hne']
            exact hc'
          have hlen : r'.length ≤ n := by
            have h1 := len_dropWhile_le isSpace r2
            have h2 : (c :: d :: r2).length ≤ n + 1 := ht
            simp only [List.length_cons] at h2
            rw [hr']
            omega
          have IH := ih r' hlen hne'
            (by intro cc hcc; rw [hx] at hcc; cases hcc; exact hxns) hlast''
          have hL : countRuns isSpace (c :: d :: r2) = countRuns isSpace r' + 1 := by
            simp only [countRuns, countRunsAux, hc, hd, if_true, if_false,
              Bool.false_eq_true]
            rw [countRunsAux_true_eq, hr']
          have hR : countRuns notSpace (c :: d :: r2) = countRuns notSpace r' + 1 := by
            have hnc : notSpace c = true := by simp [notSpace, hc]
            have hnd : notSpace d = false := by simp [notSpace, hd]
            have hq : ∀ cc, isSpace cc = !notSpace cc := by intro cc; simp [notSpace]
            simp only [countRuns, countRunsAux, hnc, hnd, if_true, if_false,
              Bool.false_eq_true]
            rw [hr', countRunsAux_dropWhile_not notSpace isSpace hq r2]
          omega
        · have IH := ih (d :: r2)
            (by simp only [List.length_cons] at ht ⊢; omega) (by simp)
            (by intro cc hcc; cases hcc; simpa using hd)
            (by intro cc hcc; exact hlast cc (by rw [List.getLast?_cons_cons]; exact hcc))
          have hL : countRuns isSpace (c :: d :: r2) = countRuns isSpace (d :: r2) := by
            simp [countRuns, countRunsAux, hc]
          have hR : countRuns notSpace (c :: d :: r2) = countRuns notSpace (d :: r2) := by
            have hnc : notSpace c = true := by simp [notSpace, hc]
            have hnd : notSpace d = true := by simp [notSpace, hd]
            simp [countRuns, countRunsAux, hnc, hnd]
          omega

theorem jsTrim_eq_nil_iff (s : List Char) : jsTrim s = [] ↔ s.all isSpace = true := by
  unfold jsTrim
  constructor
  · intro h
    have h1 : (s.dropWhile isSpace).reverse.dropWhile isSpace = [] := by
      have := congrArg List.reverse h
      simpa using this
    have h2 := List.dropWhile_eq_nil_iff.mp h1
    rw [List.all_eq_true]
    intro x hx
    rw [← List.takeWhile_append_dropWhile (p := isSpace) (l := s)] at hx
    rcases List.mem_append.mp hx with h | h
    · exact List.mem_takeWhile_imp h
    · exact h2 x (List.mem_reverse.mpr h)
  · intro h
    have h1 : s.dropWhile isSpace = [] :=
      List.dropWhile_eq_nil_iff.mpr (fun x hx => List.all_eq_true.mp h x hx)
    simp [h1]

theorem trimRight_prefix_decomp (l : List Char) :
    trimRight l ++ (l.reverse.takeWhile isSpace).reverse = l := by
  unfold trimRight
  calc (l.reverse.dropWhile isSpace).reverse ++ (l.reverse.takeWhile isSpace).reverse
      = ((l.reverse.takeWhile isSpace) ++ (l.reverse.dropWhile isSpace)).reverse := by
        rw [List.reverse_append]
    _ = l.reverse.reverse := by rw [List.takeWhile_append_dropWhile]
    _ = l := List.reverse_reverse l

theorem trimRight_all_ws (l : List Char) :
    ∀ x ∈ (l.reverse.takeWhile isSpace).reverse, isSpace x = true := by
  intro x hx
  exact List.mem_takeWhile_imp (List.mem_reverse.mp hx)

theorem trimRight_cons (c : Char) (z : List Char) :
    trimRight (c :: z) =
      if trimRight z = [] then (if isSpace c then [] else [c]) else c :: trimRight z := by
  unfold trimRight
  rw [List.reverse_cons, List.dropWhile_append]
  by_cases h : z.reverse.dropWhile isSpace = []
  · rw [h]
    by_cases hc : isSpace c <;> simp [List.dropWhile, hc]
  · have hne : (z.reverse.dropWhile isSpace).isEmpty = false := by
      cases hcase : z.reverse.dropWhile isSpace with
      | nil => exact absurd hcase h
      | cons a b => rfl
    have hne2 : ¬ (z.reverse.dropWhile isSpace).reverse = [] := by
      intro h0
      exact h (by simpa using congrArg List.reverse h0)
    rw [hne]
    simp [hne2]

theorem jsTrim_eq_trimRight (s : List Char) :
    jsTrim s = trimRight (s.dropWhile isSpace) := rfl

theorem jsTrim_cons_ws (w : Char) (z : List Char) (hw : isSpace w = true) :
    jsTrim (w :: z) = jsTrim z := by
  unfold jsTrim
  rw [List.dropWhile_cons_of_pos (by simp [hw])]

theorem jsTrim_cons_not (c : Char) (z : List Char) (hc : isSpace c = false) :
    jsTrim (c :: z) = c :: trimRight z := by
  rw [jsTrim_eq_trimRight, List.dropWhile_cons_of_neg (by simp [hc]), trimRight_cons]
  by_cases h : trimRight z = [] <;> simp [h, hc]

theorem jsTrim_head_not (s : List Char) :
    ∀ c r, jsTrim s = c :: r → isSpace c = false := by
  intro c r h
  have hd : trimRight (s.dropWhile isSpace) = c :: r := by
    rw [← jsTrim_eq_trimRight]; exact h
  have hde := trimRight_prefix_decomp (s.dropWhile isSpace)
  rw [hd] at hde
  exact dropWhile_head_not isSpace s _ c (by rw [← hde]; rfl)

theorem jsTrim_getLast_not (s : List Char) :
    ∀ c, (jsTrim s).getLast? = some c → isSpace c = false := by
  intro c hc
  unfold jsTrim at hc
  rw [List.getLast?_reverse] at hc
  cases hh : (s.dropWhile isSpace).reverse.dropWhile isSpace with
  | nil => rw [hh] at hc; cases hc
  | cons a b =>
    rw [hh] at hc
    cases hc
    exact dropWhile_head_not _ _ _ _ hh

theorem countRunsAux_append_ws :
    ∀ (l W : List Char) (b : Bool), (∀ x ∈ W, isSpace x = true) →
      countRunsAux notSpace (l ++ W) b = countRunsAux notSpace l b := by
  intro l
  induction l with
  | nil =>
    intro W b hW
    simp only [List.nil_append]
    rw [countRunsAux_all_not notSpace W b (fun c hcW => by simp [notSpace, hW c hcW])]
    rfl
  | cons c r ih =>
    intro W b hW
    by_cases h : notSpace c
    · simp only [List.cons_append, countRunsAux, h, if_true]
      cases b <;> simp [ih W true hW]
    · have h' : notSpace c = false := by revert h; cases notSpace c <;> simp
      simp only [List.cons_append, countRunsAux, h', Bool.false_eq_true, if_false]
      exact ih W false hW

theorem countRuns_notSpace_jsTrim (s : List Char) :
    countRuns notSpace (jsTrim s) = countRuns notSpace s := by
  have hq : ∀ cc, isSpace cc = !notSpace cc := by intro cc; simp [notSpace]
  have h1 : countRuns notSpace s = countRuns notSpace (s.dropWhile isSpace) := by
    unfold countRuns
    rw [countRunsAux_dropWhile_not notSpace isSpace hq s]
  have h2 := trimRight_prefix_decomp (s.dropWhile isSpace)
  have h3 := trimRight_all_ws (s.dropWhile isSpace)
  rw [h1, ← h2]
  unfold countRuns
  rw [countRunsAux_append_ws _ _ false h3, jsTrim_eq_trimRight]

theorem countP_dropWhile_ws (l : List Char) :
    (l.dropWhile isSpace).countP notSpace = l.countP notSpace := by
  induction l with
  | nil => rfl
  | cons c r ih =>
    by_cases h : isSpace c
    · rw [List.dropWhile_cons_of_pos (by simpa using h), ih,
        List.countP_cons_of_neg _ _ (by simp [notSpace, h])]
    · rw [List.dropWhile_cons_of_neg (by simpa using h)]

theorem countRunsAux_collapseWs :
    ∀ (f : Nat) (s : List Char) (b : Bool), s.length ≤ f →
      countRunsAux notSpace (collapseWsF f s) b = countRunsAux notSpace s b := by
  intro f
  induction f with
  | zero =>
    intro s b hs
    have : s = [] := by cases s <;> simp_all
    subst this
    rfl
  | succ f ih =>
    intro s b hs
    cases s with
    | nil => rfl
    | cons c r =>
      have hq : ∀ cc, isSpace cc = !notSpace cc := by intro cc; simp [notSpace]
      simp only [collapseWsF]
      by_cases h : isSpace c
      · have h1 : (r.dropWhile isSpace).length ≤ f := by
          have := len_dropWhile_le isSpace r
          simp only [List.length_cons] at hs
          omega
        have hns : notSpace c = false := by simp [notSpace, h]
        simp only [h, if_true, countRunsAux, hns, Bool.false_eq_true, if_false,
          show notSpace (Char.ofNat 0x20) = false from rfl]
        rw [ih _ false h1, countRunsAux_dropWhile_not notSpace isSpace hq r]
      · have h1 : r.length ≤ f := by simp only [List.length_cons] at hs; omega
        have hns : notSpace c = true := by simp [notSpace, h]
        simp only [h, Bool.false_eq_true, if_false, countRunsAux, hns, if_true]
        cases b <;> simp [ih _ true h1]

theorem countRuns_collapseWs (s : List Char) :
    countRuns notSpace (collapseWs s) = countRuns notSpace s :=
  countRunsAux_collapseWs s.length s false (Nat.le_refl _)

theorem splitLen_trim (s : List Char) (h : ¬ s.all isSpace = true) :
    (jsSplitWs (jsTrim s)).length = countRuns notSpace s := by
  have hne : jsTrim s ≠ [] := by
    intro h0
    exact h ((jsTrim_eq_nil_iff s).mp h0)
  have h1 : (jsSplitWs (jsTrim s)).length = countRuns isSpace (jsTrim s) + 1 :=
    splitWsF_length _ _ (Nat.le_refl _)
  have hhd : ∀ c, (jsTrim s).head? = some c → isSpace c = false := by
    intro c hc
    cases hcase : jsTrim s with
    | nil => rw [hcase] at hc; cases hc
    | cons a b =>
      rw [hcase, List.head?_cons] at hc
      cases hc
      exact jsTrim_head_not s _ _ hcase
  have h2 := runs_alt_fuel (jsTrim s).length (jsTrim s) (Nat.le_refl _) hne hhd
    (jsTrim_getLast_not s)
  rw [h1, h2, countRuns_notSpace_jsTrim]

set_option maxRecDepth 40000 in
/-- C5, amended: `calcContentHealth` is exactly the claimed additive score
with the clamp at 100, except that its word count is the number of
whitespace-separated tokens of the raw content (maximal non-whitespace
runs), markup tags included, rather than of the tag-stripped text; the
anchors hold: empty content scores 0, and the paragraph-wrapped 350-word
body with one-word sentences and a heading scores at least 90. -/
theorem C5_amended :
    (∀ text : List Char,
      calcContentHealth text =
        if text.all isSpace then 0
        else
          min (40 + (if 100 ≤ countRuns notSpace text then 20 else 0) +
            (if 300 ≤ countRuns notSpace text then 10 else 0) +
            (if countRuns notSpace text < 25 * max (countRuns isSentEnd text) 1
              then 10 else 0) +
            (if hasSub "<h1".data text || hasSub "<h2".data text || hasSub "<h3".data text
              then 10 else 0) +
            (if hasSub "<ul".data text || hasSub "<ol".data text then 5 else 0) +
            (if hasSub "<code".data text || hasSub "<pre".data text then 5 else 0)) 100)
    ∧ calcContentHealth [] = 0
    ∧ 90 ≤ calcContentHealth exBigContent := by
  refine ⟨?_, rfl, by decide⟩
  intro text
  by_cases h : text.all isSpace
  · rw [if_pos h]
    unfold calcContentHealth
    rw [if_pos ((jsTrim_eq_nil_iff text).mpr h)]
  · rw [if_neg h]
    unfold calcContentHealth
    rw [if_neg (fun h0 => h ((jsTrim_eq_nil_iff text).mp h0))]
    have hw : (jsSplitWs (jsTrim text)).length = countRuns notSpace text :=
      splitLen_trim text h
    have hs : (if countRuns isSentEnd text = 0 then 1 else countRuns isSentEnd text)
        = max (countRuns isSentEnd text) 1 := by
      by_cases h0 : countRuns isSentEnd text = 0
      · simp [h0]
      · simp only [h0, if_false]
        omega
    simp only [hw, hs]

theorem trimRight_eq_nil_iff (s : List Char) :
    trimRight s = [] ↔ ∀ x ∈ s, isSpace x = true := by
  unfold trimRight
  constructor
  · intro h x hx
    have h1 : s.reverse.dropWhile isSpace = [] := by
      simpa using congrArg List.reverse h
    exact List.dropWhile_eq_nil_iff.mp h1 x (List.mem_reverse.mpr hx)
  · intro h
    have h1 : s.reverse.dropWhile isSpace = [] :=
      List.dropWhile_eq_nil_iff.mpr (fun x hx => h x (List.mem_reverse.mp hx))
    simp [h1]

theorem collapseWsF_irrel :
    ∀ (f g : Nat) (s : List Char), s.length ≤ f → s.length ≤ g →
      collapseWsF f s = collapseWsF g s := by
  intro f
  induction f with
  | zero =>
    intro g s hf hg
    have : s = [] := by cases s <;> simp_all
    subst this
    cases g <;> rfl
  | succ f ih =>
    intro g s hf hg
    cases s with
    | nil => cases g <;> rfl
    | cons c r =>
      cases g with
      | zero => simp at hg
      | succ g' =>
        simp only [collapseWsF]
        by_cases h : isSpace c
        · simp only [h, if_true]
          have h1 := len_dropWhile_le isSpace r
          simp only [List.length_cons] at hf hg
          rw [ih g' _ (by omega) (by omega)]
        · simp only [h, Bool.false_eq_true, if_false]
          simp only [List.length_cons] at hf hg
          rw [ih g' r (by omega) (by omega)]

theorem collapseWs_cons_ws (c : Char) (r : List Char) (h : isSpace c = true) :
    collapseWs (c :: r) = Char.ofNat 0x20 :: collapseWs (r.dropWhile isSpace) := by
  unfold collapseWs
  simp only [List.length_cons, collapseWsF, h, if_true]
  rw [collapseWsF_irrel r.length (r.dropWhile isSpace).length _
    (len_dropWhile_le isSpace r) (Nat.le_refl _)]

theorem collapseWs_cons_not (c : Char) (r : List Char) (h : isSpace c = false) :
    collapseWs (c :: r) = c :: collapseWs r := by
  unfold collapseWs
  simp only [List.length_cons, collapseWsF, h, Bool.false_eq_true, if_false]

theorem charlen_fuel :
    ∀ (n : Nat) (x : List Char), x.length ≤ n →
      (jsTrim (collapseWs x)).length = countNonWs x + countRuns notSpace x - 1 := by
  intro n
  induction n with
  | zero =>
    intro x hx
    have : x = [] := by cases x <;> simp_all
    subst this
    rfl
  | succ n ih =>
    intro x hx
    have hq : ∀ cc, isSpace cc = !notSpace cc := by intro cc; simp [notSpace]
    cases x with
    | nil => rfl
    | cons c r =>
      by_cases hc : isSpace c
      · have hr' : (r.dropWhile isSpace).length ≤ n := by
          have := len_dropWhile_le isSpace r
          simp only [List.length_cons] at hx
          omega
        rw [collapseWs_cons_ws c r hc, jsTrim_cons_ws _ _ (by decide), ih _ hr']
        have h1 : countNonWs (c :: r) = countNonWs (r.dropWhile isSpace) := by
          unfold countNonWs
          rw [List.countP_cons_of_neg _ _ (by simp [notSpace, hc]), countP_dropWhile_ws]
        have h2 : countRuns notSpace (c :: r) = countRuns notSpace (r.dropWhile isSpace) := by
          unfold countRuns
          have e1 : countRunsAux notSpace (c :: r) false = countRunsAux notSpace r false := by
            simp [countRunsAux, notSpace, hc]
          rw [e1, ← countRunsAux_dropWhile_not notSpace isSpace hq r]
        omega
      · have hcf : isSpace c = false := by revert hc; cases isSpace c <;> simp
        rw [collapseWs_cons_not c r hcf]
        cases r with
        | nil =>
          rw [show collapseWs [] = [] from rfl, jsTrim_cons_not c [] hcf]
          simp [trimRight, countNonWs, countRuns, countRunsAux, notSpace, hcf,
            List.countP_cons, List.countP_nil]
        | cons d r2 =>
          by_cases hd : isSpace d
          · rw [collapseWs_cons_ws d r2 hd, jsTrim_cons_not c _ hcf, trimRight_cons]
            have hcount : countNonWs (c :: d :: r2) = 1 + countNonWs (r2.dropWhile isSpace) := by
              have e1 := List.countP_cons_of_pos notSpace (d :: r2)
                (show notSpace c = true by simp [notSpace, hcf])
              have e2 := List.countP_cons_of_neg notSpace r2
                (show ¬ notSpace d = true by simp [notSpace, hd])
              have e3 := countP_dropWhile_ws r2
              unfold countNonWs at *
              omega
            have hruns : countRuns notSpace (c :: d :: r2)
                = 1 + countRuns notSpace (r2.dropWhile isSpace) := by
              unfold countRuns
              simp only [countRunsAux, show notSpace c = true by simp [notSpace, hcf],
                show notSpace d = false by simp [notSpace, hd], if_true,
                Bool.false_eq_true, if_false]
              rw [countRunsAux_dropWhile_not notSpace isSpace hq r2]
              omega
            by_cases hz : trimRight (collapseWs (r2.dropWhile isSpace)) = []
            · cases hr'case : r2.dropWhile isSpace with
              | nil =>
                rw [hr'case] at hz
                rw [if_pos hz]
                have hall : ∀ y ∈ r2, isSpace y = true := List.dropWhile_eq_nil_iff.mp hr'case
                have hcnt0 : countNonWs (r2.dropWhile isSpace) = 0 := by
                  rw [hr'case]; rfl
                have hrun0 : countRuns notSpace (r2.dropWhile isSpace) = 0 := by
                  rw [hr'case]; rfl
                simp only [show isSpace (Char.ofNat 32) = true from by decide, if_true,
                  List.length_cons, List.length_nil]
                omega
              | cons a b =>
                exfalso
                have ha : isSpace a = false := dropWhile_head_not isSpace r2 b a hr'case
                rw [hr'case, collapseWs_cons_not a b ha] at hz
                have := (trimRight_eq_nil_iff (a :: collapseWs b)).mp hz a (by simp)
                rw [ha] at this
                cases this
            · rw [if_neg hz]
              obtain ⟨a, b, hr'case⟩ : ∃ a b, r2.dropWhile isSpace = a :: b := by
                cases hcase : r2.dropWhile isSpace with
                | nil =>
                  exfalso
                  rw [hcase] at hz
                  exact hz rfl
                | cons a b => exact ⟨a, b, rfl⟩
              have ha : isSpace a = false := dropWhile_head_not isSpace r2 b a hr'case
              have hjt : jsTrim (collapseWs (r2.dropWhile isSpace))
                  = trimRight (collapseWs (r2.dropWhile isSpace)) := by
                rw [hr'case, collapseWs_cons_not a b ha, jsTrim_eq_trimRight,
                  List.dropWhile_cons_of_neg (by simp [ha])]
              have hlen2 : (r2.dropWhile isSpace).length ≤ n := by
                have := len_dropWhile_le isSpace r2
                simp only [List.length_cons] at hx
                omega
              have IH := ih (r2.dropWhile isSpace) hlen2
              rw [hjt] at IH
              have hge : 1 ≤ countRuns notSpace (r2.dropWhile isSpace) := by
                rw [hr'case]
                simp [countRuns, countRunsAux, show notSpace a = true by simp [notSpace, ha]]
              simp only [List.length_cons]
              omega
          · have hdf : isSpace d = false := by revert hd; cases isSpace d <;> simp
            have hwz : collapseWs (d :: r2) = d :: collapseWs r2 :=
              collapseWs_cons_not d r2 hdf
            rw [hwz, jsTrim_cons_not c _ hcf]
            have hjt : jsTrim (collapseWs (d :: r2)) = trimRight (d :: collapseWs r2) := by
              rw [hwz, jsTrim_eq_trimRight, List.dropWhile_cons_of_neg (by simp [hdf])]
            have hlen2 : (d :: r2).length ≤ n := by
              simp only [List.length_cons] at hx ⊢
              omega
            have IH := ih (d :: r2) hlen2
            rw [hjt] at IH
            have hcount : countNonWs (c :: d :: r2) = 1 + countNonWs (d :: r2) := by
              have e1 := List.countP_cons_of_pos notSpace (d :: r2)
                (show notSpace c = true by simp [notSpace, hcf])
              unfold countNonWs at *
              omega
            have hruns : countRuns notSpace (c :: d :: r2) = countRuns notSpace (d :: r2) := by
              simp [countRuns, countRunsAux, notSpace, hcf, hdf]
            have hge : 1 ≤ countRuns notSpace (d :: r2) := by
              simp [countRuns, countRunsAux, show notSpace d = true by simp [notSpace, hdf]]
            simp only [List.length_cons]
            omega

theorem statsWordCount_eq (content : List Char) :
    statsWordCount content = countRuns notSpace (tagToSpace content) := by
  unfold statsWordCount statsText
  by_cases h : jsTrim (collapseWs (tagToSpace content)) = []
  · rw [if_pos h]
    have hall := (jsTrim_eq_nil_iff _).mp h
    have h0 : countRuns notSpace (collapseWs (tagToSpace content)) = 0 :=
      countRunsAux_all_not notSpace _ false (fun cc hcc => by
        simp [notSpace, List.all_eq_true.mp hall cc hcc])
    rw [← countRuns_collapseWs, h0]
  · rw [if_neg h]
    have hnall : ¬ (collapseWs (tagToSpace content)).all isSpace = true := fun hh =>
      h ((jsTrim_eq_nil_iff _).mpr hh)
    rw [splitLen_trim _ hnall, countRuns_collapseWs]

/-- C6, amended: `updateEditorStats` computes the word count as the number
of whitespace-separated tokens (maximal non-whitespace runs) of the content
with every markup tag replaced by a single space (tags are replaced, not
removed, so `a<b>c` is two words); the character count equals the number of
non-whitespace characters of that tag-replaced content plus the gaps
between its words (its whitespace-collapsed, trimmed length); the reading
time is the exact ceiling of wordCount / 238; and "Hello world" yields 2
words and 11 characters. -/
theorem C6_amended :
    (∀ (content : String) (s : EditorState),
      (updateEditorStats content s).wordCount = countRuns notSpace (tagToSpace content.data) ∧
      (updateEditorStats content s).charCount
        = countNonWs (tagToSpace content.data)
          + countRuns notSpace (tagToSpace content.data) - 1 ∧
      ((updateEditorStats content s).wordCount = 0 →
        (updateEditorStats content s).readingTime = 0) ∧
      (0 < (updateEditorStats content s).wordCount →
        238 * ((updateEditorStats content s).readingTime - 1)
            < (updateEditorStats content s).wordCount ∧
        (updateEditorStats content s).wordCount
            ≤ 238 * (updateEditorStats content s).readingTime))
    ∧ (updateEditorStats "Hello world" { documents := [] }).wordCount = 2
    ∧ (updateEditorStats "Hello world" { documents := [] }).charCount = 11 := by
  refine ⟨?_, rfl, rfl⟩
  intro content s
  have hwc : (updateEditorStats content s).wordCount = statsWordCount content.data := rfl
  have hrt : (updateEditorStats content s).readingTime
      = calcReadingTime (statsWordCount content.data) := rfl
  refine ⟨?_, ?_, ?_, ?_⟩
  · rw [hwc, statsWordCount_eq]
  · have hcc : (updateEditorStats content s).charCount = statsCharCount content.data := rfl
    rw [hcc]
    unfold statsCharCount statsText
    exact charlen_fuel (tagToSpace content.data).length _ (Nat.le_refl _)
  · intro h0
    have h1 : statsWordCount content.data = 0 := by rw [← hwc]; exact h0
    rw [hrt, h1]
    decide
  · intro h0
    have h1 : 0 < statsWordCount content.data := by rw [← hwc]; exact h0
    rw [hwc, hrt]
    unfold calcReadingTime
    have h2 : (statsWordCount content.data + 237) / 238 * 238
        ≤ statsWordCount content.data + 237 := Nat.div_mul_le_self _ _
    have h3 : statsWordCount content.data + 237
        < (statsWordCount content.data + 237) / 238 * 238 + 238 :=
      Nat.lt_div_mul_add (by omega)
    constructor <;> rw [statsWordCount_eq] at h1 ⊢ <;> rw [statsWordCount_eq] at h2 h3 <;> omega

/-- Witness for the amended C6 at the concrete content "Hello world": the
word count is positive and the reading-time ceiling bounds hold there. -/
theorem C6_amended_witness :
    0 < (updateEditorStats "Hello world" { documents := [] }).wordCount ∧
    238 * ((updateEditorStats "Hello world" { documents := [] }).readingTime - 1)
        < (updateEditorStats "Hello world" { documents := [] }).wordCount ∧
    (updateEditorStats "Hello world" { documents := [] }).wordCount
        ≤ 238 * (updateEditorStats "Hello world" { documents := [] }).readingTime :=
  ⟨by decide,
   ((C6_amended.1 "Hello world" { documents := [] }).2.2.2 (by decide)).1,
   ((C6_amended.1 "Hello world" { documents := [] }).2.2.2 (by decide)).2⟩

/-! Lemmas for the extension claim. -/

theorem toNat_ofNat_lt (n : Nat) (h : n < 0xd800) : (Char.ofNat n).toNat = n := by
  unfold Char.ofNat
  split
  · rfl
  · next hh =>
    exfalso
    apply hh
    exact Or.inl h

theorem isSpace_false_of_mid (c : Char) (h1 : 0x21 ≤ c.toNat) (h2 : c.toNat ≤ 0x7e) :
    isSpace c = false := by
  simp only [isSpace, Bool.or_eq_false_iff, Bool.and_eq_false_iff,
    decide_eq_false_iff_not]
  omega

theorem toLowerC_toNat (c : Char) :
    (toLowerC c).toNat
      = if 0x41 ≤ c.toNat ∧ c.toNat ≤ 0x5a then c.toNat + 32 else c.toNat := by
  unfold toLowerC
  by_cases h : 0x41 ≤ c.toNat ∧ c.toNat ≤ 0x5a
  · rw [if_pos (by simp [h.1, h.2]), if_pos h]
    exact toNat_ofNat_lt _ (by omega)
  · rw [if_neg (by simpa [Decidable.not_and_iff_or_not] using
      (by exact fun hh => h ⟨by simpa using hh.1, by simpa using hh.2⟩ :
        ¬ ((0x41 ≤ c.toNat) = true ∧ (c.toNat ≤ 0x5a) = true))), if_neg h]

theorem isSpace_toLowerC (c : Char) : isSpace (toLowerC c) = isSpace c := by
  by_cases h : 0x41 ≤ c.toNat ∧ c.toNat ≤ 0x5a
  · rw [isSpace_false_of_mid c (by omega) (by omega)]
    apply isSpace_false_of_mid
    · rw [toLowerC_toNat, if_pos h]; omega
    · rw [toLowerC_toNat, if_pos h]; omega
  · have : (toLowerC c).toNat = c.toNat := by rw [toLowerC_toNat, if_neg h]
    simp only [isSpace, this]

theorem isAlnum_toLowerC (c : Char) : isAlnum (toLowerC c) = isAlnum c := by
  by_cases h : 0x41 ≤ c.toNat ∧ c.toNat ≤ 0x5a
  · have hl : (toLowerC c).toNat = c.toNat + 32 := by rw [toLowerC_toNat, if_pos h]
    rw [Bool.eq_iff_iff]
    simp only [isAlnum, isDigit, hl, Bool.or_eq_true, Bool.and_eq_true,
      decide_eq_true_eq]
    omega
  · have hl : (toLowerC c).toNat = c.toNat := by rw [toLowerC_toNat, if_neg h]
    simp only [isAlnum, isDigit, hl]

theorem toLowerC_eq_dot_iff (c : Char) :
    toLowerC c = Char.ofNat 0x2e ↔ c = Char.ofNat 0x2e := by
  have hdot : (Char.ofNat 0x2e).toNat = 0x2e := by decide
  constructor
  · intro h
    by_cases hc : 0x41 ≤ c.toNat ∧ c.toNat ≤ 0x5a
    · exfalso
      have := congrArg Char.toNat h
      rw [toLowerC_toNat, if_pos hc, hdot] at this
      omega
    · have he : toLowerC c = c := by
        unfold toLowerC
        rw [if_neg (by intro hh; simp only [Bool.and_eq_true, decide_eq_true_eq] at hh; exact hc hh)]
      rw [← he]
      exact h
  · intro h
    subst h
    rfl

theorem toLowerC_idem (c : Char) : toLowerC (toLowerC c) = toLowerC c := by
  have expand : ∀ d : Char, toLowerC d
      = if 0x41 ≤ d.toNat && d.toNat ≤ 0x5a then Char.ofNat (d.toNat + 32) else d :=
    fun d => rfl
  by_cases h : 0x41 ≤ c.toNat ∧ c.toNat ≤ 0x5a
  · have hl : (toLowerC c).toNat = c.toNat + 32 := by rw [toLowerC_toNat, if_pos h]
    rw [expand (toLowerC c),
      if_neg (by rw [hl]; intro hh; simp only [Bool.and_eq_true, decide_eq_true_eq] at hh; omega)]
  · have hl : (toLowerC c).toNat = c.toNat := by rw [toLowerC_toNat, if_neg h]
    rw [expand (toLowerC c),
      if_neg (by rw [hl]; intro hh; simp only [Bool.and_eq_true, decide_eq_true_eq] at hh; exact h hh)]

theorem splitDot_ne_nil (l : List Char) : splitDot l ≠ [] := by
  cases l with
  | nil => simp [splitDot]
  | cons c r =>
    simp only [splitDot]
    by_cases h : c = Char.ofNat 0x2e
    · simp [h]
    · simp only [h, if_false]
      cases hcase : splitDot r with
      | nil => exact absurd hcase (splitDot_ne_nil r)
      | cons y ys => simp

theorem takeWhile_append_singleton_neg (p : Char → Bool) (x : Char) (hx : p x = false) :
    ∀ A : List Char, (A ++ [x]).takeWhile p = A.takeWhile p := by
  intro A
  induction A with
  | nil => simp [List.takeWhile, hx]
  | cons a A' ih =>
    by_cases ha : p a
    · simp only [List.cons_append, List.takeWhile_cons, ha, if_true, ih]
    · have ha' : p a = false := by revert ha; cases p a <;> simp
      simp [List.takeWhile_cons, ha']

theorem takeWhile_append_of_mem_not (p : Char → Bool) :
    ∀ (A B : List Char), (∃ x ∈ A, p x = false) →
      (A ++ B).takeWhile p = A.takeWhile p := by
  intro A
  induction A with
  | nil => rintro B ⟨x, hx, _⟩; cases hx
  | cons a A' ih =>
    rintro B ⟨x, hx, hpx⟩
    by_cases ha : p a
    · have hxA' : x ∈ A' := by
        rcases List.mem_cons.mp hx with h | h
        · subst h; rw [ha] at hpx; cases hpx
        · exact h
      simp only [List.cons_append, List.takeWhile_cons, ha, if_true,
        ih B ⟨x, hxA', hpx⟩]
    · have ha' : p a = false := by revert ha; cases p a <;> simp
      simp [List.takeWhile_cons, ha']

theorem splitDot_no_dot (l : List Char) (h : ∀ x ∈ l, ¬ x = Char.ofNat 0x2e) :
    splitDot l = [l] := by
  induction l with
  | nil => rfl
  | cons c r ih =>
    simp only [splitDot, h c (by simp), if_false]
    rw [ih (fun x hx => h x (by simp [hx]))]
    rfl

theorem takeWhile_all (p : Char → Bool) :
    ∀ A : List Char, (∀ x ∈ A, p x = true) → A.takeWhile p = A := by
  intro A
  induction A with
  | nil => intro _; rfl
  | cons a A' ih =>
    intro h
    rw [List.takeWhile_cons, if_pos (h a (by simp)), ih (fun x hx => h x (by simp [hx]))]

theorem splitDot_two_of_mem (l : List Char) (h : ∃ x ∈ l, x = Char.ofNat 0x2e) :
    2 ≤ (splitDot l).length := by
  induction l with
  | nil =>
    obtain ⟨x, hx, _⟩ := h
    cases hx
  | cons c r ih =>
    by_cases hc : c = Char.ofNat 0x2e
    · simp only [splitDot, hc, if_true, List.length_cons]
      have h1 : 0 < (splitDot r).length := List.length_pos.mpr (splitDot_ne_nil r)
      omega
    · obtain ⟨x, hx, hxd⟩ := h
      have hxr : x ∈ r := by
        rcases List.mem_cons.mp hx with h0 | h0
        · exact absurd (h0 ▸ hxd) hc
        · exact h0
      have := ih ⟨x, hxr, hxd⟩
      simp only [splitDot, hc, if_false, List.length_modifyHead]
      exact this

theorem splitDot_getLast (l : List Char) :
    (splitDot l).getLast?
      = some ((l.reverse.takeWhile (fun c => !(c = Char.ofNat 0x2e))).reverse) := by
  induction l with
  | nil => rfl
  | cons c r ih =>
    by_cases hc : c = Char.ofNat 0x2e
    · simp only [splitDot, hc, if_true, List.reverse_cons]
      rw [takeWhile_append_singleton_neg _ _ (by simp) r.reverse]
      cases hcase : splitDot r with
      | nil => exact absurd hcase (splitDot_ne_nil r)
      | cons y ys =>
        rw [List.getLast?_cons_cons]
        rw [hcase] at ih
        exact ih
    · simp only [splitDot, hc, if_false, List.reverse_cons]
      by_cases hdot : ∃ x ∈ r, x = Char.ofNat 0x2e
      · obtain ⟨x, hxr, hxd⟩ := hdot
        rw [takeWhile_append_of_mem_not _ r.reverse [c]
          ⟨x, List.mem_reverse.mpr hxr, by simp [hxd]⟩]
        cases hcase : splitDot r with
        | nil => exact absurd hcase (splitDot_ne_nil r)
        | cons y ys =>
          cases ys with
          | nil =>
            exfalso
            have h2 := splitDot_two_of_mem r ⟨x, hxr, hxd⟩
            rw [hcase] at h2
            simp at h2
          | cons z zs =>
            rw [List.modifyHead_cons, List.getLast?_cons_cons]
            rw [hcase, List.getLast?_cons_cons] at ih
            exact ih
      · push_neg at hdot
        rw [splitDot_no_dot r hdot, List.modifyHead_cons]
        have hall : ∀ x ∈ r.reverse ++ [c], (fun cc => !(cc = Char.ofNat 0x2e)) x = true := by
          intro x hx
          rcases List.mem_append.mp hx with h0 | h0
          · simp [hdot x (List.mem_reverse.mp h0)]
          · simp only [List.mem_singleton] at h0
            simp [h0, hc]
        rw [takeWhile_all _ _ hall]
        simp

theorem getDocumentExtension_char (d : JsDoc) :
    getDocumentExtension d = amendedExtensionOf ((d.title.getD "").data) := by
  unfold getDocumentExtension amendedExtensionOf
  by_cases h : (jsTrim ((d.title.getD "").data)).contains (Char.ofNat 0x2e)
  · rw [if_pos h, if_pos h, splitDot_getLast]
  · rw [if_neg h, if_neg h]

theorem jsTrim_map_toLower (t : List Char) :
    jsTrim (t.map toLowerC) = (jsTrim t).map toLowerC := by
  have hco : isSpace ∘ toLowerC = isSpace := funext isSpace_toLowerC
  unfold jsTrim
  rw [List.dropWhile_map, List.reverse_map, List.dropWhile_map, List.reverse_map, hco]

theorem contains_dot_map (t : List Char) :
    (t.map toLowerC).contains (Char.ofNat 0x2e) = t.contains (Char.ofNat 0x2e) := by
  induction t with
  | nil => rfl
  | cons c r ih =>
    simp only [List.map_cons, List.contains_cons, ih]
    congr 1
    rw [Bool.eq_iff_iff, beq_iff_eq, beq_iff_eq]
    constructor
    · intro h
      exact ((toLowerC_eq_dot_iff c).mp h.symm).symm
    · intro h
      exact ((toLowerC_eq_dot_iff c).mpr h.symm).symm

theorem takeWhile_notdot_map (l : List Char) :
    (l.map toLowerC).takeWhile (fun c => !(c = Char.ofNat 0x2e))
      = (l.takeWhile (fun c => !(c = Char.ofNat 0x2e))).map toLowerC := by
  rw [List.takeWhile_map,
    show ((fun c => !decide (c = Char.ofNat 0x2e)) ∘ toLowerC)
        = (fun c : Char => !decide (c = Char.ofNat 0x2e)) from
      funext fun c => congrArg (fun b => !b) (decide_eq_decide.mpr (toLowerC_eq_dot_iff c))]

/-- C7, amended: `getDocumentExtension` returns the lowercase segment of the
*whitespace-trimmed* title after its last dot, provided that segment is
non-empty and purely alphanumeric, and none otherwise (in particular none
when the trimmed title has no dot); the result is unchanged when the title
is lower-cased, and the claim's examples hold. -/
theorem C7_amended :
    (∀ d : JsDoc, getDocumentExtension d = amendedExtensionOf ((d.title.getD "").data))
    ∧ (∀ t : List Char,
        getDocumentExtension { title := some (String.mk (t.map toLowerC)) }
          = getDocumentExtension { title := some (String.mk t) })
    ∧ getDocumentExtension { title := some "Notes.TXT" } = some "txt"
    ∧ getDocumentExtension { title := some "notes.txt" } = some "txt"
    ∧ getDocumentExtension { title := some "my.file.name" } = some "name"
    ∧ getDocumentExtension { title := some "noext" } = none := by
  refine ⟨getDocumentExtension_char, ?_, by decide, by decide, by decide, by decide⟩
  intro t
  rw [getDocumentExtension_char, getDocumentExtension_char]
  show amendedExtensionOf (t.map toLowerC) = amendedExtensionOf t
  simp only [amendedExtensionOf]
  rw [jsTrim_map_toLower t, contains_dot_map (jsTrim t)]
  by_cases h : (jsTrim t).contains (Char.ofNat 0x2e)
  · rw [if_pos h, if_pos h]
    have hseg :
        ((((jsTrim t).map toLowerC).reverse.takeWhile
            (fun c => !(c = Char.ofNat 0x2e))).reverse).map toLowerC
          = (((jsTrim t).reverse.takeWhile
              (fun c => !(c = Char.ofNat 0x2e))).reverse).map toLowerC := by
      rw [List.reverse_map, takeWhile_notdot_map, List.reverse_map, List.map_map,
        show toLowerC ∘ toLowerC = toLowerC from funext toLowerC_idem]
    rw [hseg]
  · rw [if_neg h, if_neg h]

/-! Lemmas for the debounced-save claim. -/

theorem debouncedSave_eq (now : Nat) (c : String) (s : Surface) (h : SurfInv s) :
    debouncedSave now c s =
      { timers := [{ tid := s.nextId, fireAt := now + 600, content := c }],
        ref := some s.nextId,
        nextId := s.nextId + 1 } := by
  obtain ⟨hlen, href⟩ := h
  unfold debouncedSave
  cases hr : s.ref with
  | none =>
    have htnil : s.timers = [] := by
      cases ht : s.timers with
      | nil => rfl
      | cons t ts =>
        have := (href t (by rw [ht]; simp)).1
        rw [hr] at this
        cases this
    simp [htnil]
  | some tid =>
    have hfil : s.timers.filter (fun t => !(t.tid = tid)) = [] := by
      rw [List.filter_eq_nil_iff]
      intro t ht
      have := (href t ht).1
      rw [hr] at this
      cases this
      simp
    simp [clearTimeoutS, hfil]

theorem surfInv_debounce (now : Nat) (c : String) (s : Surface) (h : SurfInv s) :
    SurfInv (debouncedSave now c s) := by
  rw [debouncedSave_eq now c s h]
  constructor
  · simp
  · intro t ht
    simp only [List.mem_singleton] at ht
    subst ht
    exact ⟨rfl, by simp⟩

theorem surfInv_step (sess : EditorSession) (ev : SEv) (h : SurfInv sess.surface) :
    SurfInv (stepEv sess ev).surface := by
  cases ev with
  | edit now c => exact surfInv_debounce now c sess.surface h
  | fireDue =>
    obtain ⟨hlen, href⟩ := h
    simp only [stepEv]
    cases ht : sess.surface.timers with
    | nil => exact ⟨by rw [ht]; simp, fun t h2 => href t h2⟩
    | cons t rest =>
      have hr0 : rest = [] := by
        rw [ht] at hlen
        simp only [List.length_cons] at hlen
        exact List.length_eq_zero.mp (by omega)
      subst hr0
      unfold fireCallback
      cases sess.activeDocumentId <;>
        exact ⟨by simp, fun t2 h2 => absurd h2 (by simp)⟩

theorem surfInv_run (init : EditorSession) (evs : List SEv) (h : SurfInv init.surface) :
    SurfInv (runEvents init evs).surface := by
  induction evs generalizing init with
  | nil => exact h
  | cons ev evs ih =>
    rw [runEvents, List.foldl_cons]
    exact ih (stepEv init ev) (surfInv_step init ev h)

theorem stepEv_active (sess : EditorSession) (ev : SEv) :
    (stepEv sess ev).activeDocumentId = sess.activeDocumentId := by
  cases ev with
  | edit now c => rfl
  | fireDue =>
    simp only [stepEv]
    cases sess.surface.timers with
    | nil => rfl
    | cons t rest =>
      unfold fireCallback
      cases sess.activeDocumentId <;> rfl

theorem runEvents_active (init : EditorSession) (evs : List SEv) :
    (runEvents init evs).activeDocumentId = init.activeDocumentId := by
  induction evs generalizing init with
  | nil => rfl
  | cons ev evs ih =>
    rw [runEvents, List.foldl_cons]
    rw [show List.foldl stepEv (stepEv init ev) evs = runEvents (stepEv init ev) evs from rfl,
      ih (stepEv init ev), stepEv_active]

theorem lookupKey_setKey (k : String) (v : JsDoc) (l : Tbl) :
    lookupKey k (setKey k v l) = some v := by
  induction l with
  | nil => simp [setKey, lookupKey]
  | cons e r ih =>
    by_cases h : e.1 = k
    · simp [setKey, h, lookupKey]
    · simp only [setKey, h, if_false]
      unfold lookupKey at ih ⊢
      rw [List.find?_cons_of_neg _ (by simp [h])]
      exact ih

theorem fireCallback_lookup (t : STimer) (sess : EditorSession) (id : String)
    (h : sess.activeDocumentId = some id) :
    ∃ d, lookupKey id (fireCallback t sess).store.documents = some d ∧
      d.content = some t.content := by
  have hstats : ∀ (x : String) (st : EditorState),
      (updateEditorStats x st).documents = st.documents := fun _ _ => rfl
  refine ⟨{ mergeDoc ((lookupKey id sess.store.documents).getD {})
      { content := some t.content } with updatedAt := some t.fireAt }, ?_, rfl⟩
  unfold fireCallback
  rw [h]
  show lookupKey id (if sess.plainMode then updateEditorStats t.content
        (updateDocument t.fireAt id { content := some t.content } sess.store)
      else updateDocument t.fireAt id { content := some t.content } sess.store).documents = _
  by_cases hpm : sess.plainMode
  · rw [if_pos hpm, hstats]
    exact lookupKey_setKey id _ sess.store.documents
  · rw [if_neg hpm]
    exact lookupKey_setKey id _ sess.store.documents

/-- C9: every edit cancels the pending debounce timer and schedules a fresh
600ms save, so after any event history the surface has at most one pending
timer; after a final edit the single pending timer carries exactly that
edit's content, due 600ms later; and when that timer fires, the document
store's entry for the captured active id holds the content of the most
recent edit, never that of an earlier superseded edit. -/
theorem C9_debounced_save (init : EditorSession) (evs : List SEv) (now : Nat) (c : String)
    (h : SurfInv init.surface) :
    (runEvents init evs).surface.timers.length ≤ 1 ∧
    (∃ n, (runEvents init (evs ++ [.edit now c])).surface.timers
        = [{ tid := n, fireAt := now + 600, content := c }]) ∧
    (∀ id, init.activeDocumentId = some id →
      ∃ d, lookupKey id (runEvents init (evs ++ [.edit now c, .fireDue])).store.documents
          = some d ∧ d.content = some c) := by
  have hmid : SurfInv (runEvents init evs).surface := surfInv_run init evs h
  have hstep1 : runEvents init (evs ++ [.edit now c])
      = stepEv (runEvents init evs) (.edit now c) := by
    rw [runEvents, runEvents, List.foldl_append]
    rfl
  have hsurf : (stepEv (runEvents init evs) (.edit now c)).surface.timers
      = [{ tid := (runEvents init evs).surface.nextId, fireAt := now + 600, content := c }] := by
    show (debouncedSave now c (runEvents init evs).surface).timers = _
    rw [debouncedSave_eq now c _ hmid]
  refine ⟨hmid.1, ⟨(runEvents init evs).surface.nextId, by rw [hstep1]; exact hsurf⟩, ?_⟩
  intro id hid
  have hstep2 : runEvents init (evs ++ [.edit now c, .fireDue])
      = stepEv (stepEv (runEvents init evs) (.edit now c)) .fireDue := by
    rw [runEvents, runEvents, List.foldl_append]
    rfl
  rw [hstep2]
  have hact2 : (stepEv (runEvents init evs) (.edit now c)).activeDocumentId = some id := by
    rw [stepEv_active, runEvents_active]
    exact hid
  have hfinal : stepEv (stepEv (runEvents init evs) (.edit now c)) .fireDue
      = fireCallback ⟨(runEvents init evs).surface.nextId, now + 600, c⟩
          { (stepEv (runEvents init evs) (.edit now c)) with
            surface :=
              { (stepEv (runEvents init evs) (.edit now c)).surface with timers := [] } } := by
    have htim : (debouncedSave now c (runEvents init evs).surface).timers
        = [⟨(runEvents init evs).surface.nextId, now + 600, c⟩] := by
      rw [debouncedSave_eq now c _ hmid]
    simp only [stepEv, htim]
  rw [hfinal]
  exact fireCallback_lookup _ _ id hact2

/-- Witness for the debounce claim at a concrete session: an idle surface
satisfies the invariant, and after the history edit(0,"one"),
edit(100,"two"), fire, the single timer carried "two" due at 700 and the
store holds content "two" for the active document. -/
theorem C9_debounced_save_witness :
    SurfInv sessInit.surface ∧
    (runEvents sessInit [SEv.edit 0 "one"]).surface.timers.length ≤ 1 ∧
    (∃ n, (runEvents sessInit ([SEv.edit 0 "one"] ++ [SEv.edit 100 "two"])).surface.timers
        = [{ tid := n, fireAt := 100 + 600, content := "two" }]) ∧
    (∃ d, lookupKey "d"
        (runEvents sessInit
          ([SEv.edit 0 "one"] ++ [SEv.edit 100 "two", SEv.fireDue])).store.documents
      = some d ∧ d.content = some "two") := by
  have hinv : SurfInv sessInit.surface := ⟨by decide, by intro t ht; simp [sessInit] at ht⟩
  have hmain := C9_debounced_save sessInit [SEv.edit 0 "one"] 100 "two" hinv
  exact ⟨hinv, hmain.1, hmain.2.1, hmain.2.2 "d" rfl⟩

/-! Lemmas for the markup-injection claim. -/

theorem escChar_no_special (c x : Char) (hx : x ∈ escChar c) :
    ¬ (x = Char.ofNat 0x3c ∨ x = Char.ofNat 0x3e ∨ x = Char.ofNat 0x22 ∨
       x = Char.ofNat 0x27) := by
  unfold escChar at hx
  by_cases h1 : c = Char.ofNat 0x26
  · rw [if_pos h1] at hx
    fin_cases hx <;> decide
  · rw [if_neg h1] at hx
    by_cases h2 : c = Char.ofNat 0x3c
    · rw [if_pos h2] at hx
      fin_cases hx <;> decide
    · rw [if_neg h2] at hx
      by_cases h3 : c = Char.ofNat 0x3e
      · rw [if_pos h3] at hx
        fin_cases hx <;> decide
      · rw [if_neg h3] at hx
        by_cases h4 : c = Char.ofNat 0x22
        · rw [if_pos h4] at hx
          fin_cases hx <;> decide
        · rw [if_neg h4] at hx
          by_cases h5 : c = Char.ofNat 0x27
          · rw [if_pos h5] at hx
            fin_cases hx <;> decide
          · rw [if_neg h5] at hx
            simp only [List.mem_singleton] at hx
            subst hx
            push_neg
            exact ⟨h2, h3, h4, h5⟩

theorem escapeHtml_no_special (t : List Char) :
    ∀ x ∈ escapeHtml t,
      ¬ (x = Char.ofNat 0x3c ∨ x = Char.ofNat 0x3e ∨ x = Char.ofNat 0x22 ∨
         x = Char.ofNat 0x27) := by
  induction t with
  | nil => intro x hx; cases hx
  | cons c r ih =>
    intro x hx
    rcases List.mem_append.mp (by simpa [escapeHtml] using hx) with h | h
    · exact escChar_no_special c x h
    · exact ih x h

theorem splitParasF_mem :
    ∀ (f : Nat) (s p : List Char) (x : Char), p ∈ splitParasF f s → x ∈ p → x ∈ s := by
  intro f
  induction f with
  | zero =>
    intro s p x hp hx
    cases s with
    | nil =>
      simp only [splitParasF, List.mem_singleton] at hp
      subst hp
      cases hx
    | cons c r =>
      simp only [splitParasF, List.mem_singleton] at hp
      subst hp
      exact hx
  | succ f ih =>
    intro s p x hp hx
    cases s with
    | nil =>
      simp only [splitParasF, List.mem_singleton] at hp
      subst hp
      cases hx
    | cons c r =>
      simp only [splitParasF] at hp
      by_cases h : c = Char.ofNat 0x0a && r.head? = some (Char.ofNat 0x0a)
      · rw [if_pos h] at hp
        rcases List.mem_cons.mp hp with h0 | h0
        · subst h0; cases hx
        · have := ih _ p x h0 hx
          exact List.mem_cons_of_mem c (List.dropWhile_subset _ this)
      · rw [if_neg h] at hp
        cases hrec : splitParasF f r with
        | nil => rw [hrec] at hp; cases hp
        | cons y ys =>
          rw [hrec, List.modifyHead_cons] at hp
          rcases List.mem_cons.mp hp with h0 | h0
          · subst h0
            rcases List.mem_cons.mp hx with h1 | h1
            · exact h1 ▸ List.mem_cons_self c r
            · exact List.mem_cons_of_mem c
                (ih r y x (by rw [hrec]; exact List.mem_cons_self y ys) h1)
          · exact List.mem_cons_of_mem c
              (ih r p x (by rw [hrec]; exact List.mem_cons_of_mem y h0) hx)

theorem ltOk_cons (c : Char) (X : List Char) (h : ¬ c = Char.ofNat 0x3c) :
    ltOnlyMarkers (c :: X) = ltOnlyMarkers X := by
  unfold ltOnlyMarkers
  rw [if_neg h]
  exact ltOnlyMarkers.eq_def X

theorem ltOk_p (X : List Char) :
    ltOnlyMarkers ('<' :: 'p' :: '>' :: X) = ltOnlyMarkers X := by
  unfold ltOnlyMarkers
  rw [if_pos rfl]
  exact ltOnlyMarkers.eq_def X

theorem ltOk_close (X : List Char) :
    ltOnlyMarkers ('<' :: '/' :: 'p' :: '>' :: X) = ltOnlyMarkers X := by
  unfold ltOnlyMarkers
  rw [if_pos rfl]
  exact ltOnlyMarkers.eq_def X

theorem ltOk_br (X : List Char) :
    ltOnlyMarkers ('<' :: 'b' :: 'r' :: '>' :: X) = ltOnlyMarkers X := by
  unfold ltOnlyMarkers
  rw [if_pos rfl]
  exact ltOnlyMarkers.eq_def X

theorem brEnc_ltOk (p rest : List Char) (hp : ∀ x ∈ p, ¬ x = Char.ofNat 0x3c)
    (hrest : ltOnlyMarkers rest = true) : ltOnlyMarkers (brEnc p ++ rest) = true := by
  induction p with
  | nil => exact hrest
  | cons c r ih =>
    have ihr := ih (fun x hx => hp x (by simp [hx]))
    by_cases h : c = Char.ofNat 0x0a
    · rw [show brEnc (c :: r) = "<br>".data ++ brEnc r from by simp [brEnc, h],
        show "<br>".data = ['<', 'b', 'r', '>'] from rfl]
      simp only [List.cons_append, List.nil_append, List.append_assoc]
      rw [ltOk_br]
      exact ihr
    · rw [show brEnc (c :: r) = c :: brEnc r from by simp [brEnc, h], List.cons_append,
        ltOk_cons c _ (hp c (by simp))]
      exact ihr

theorem wrapPara_ltOk (p rest : List Char) (hp : ∀ x ∈ p, ¬ x = Char.ofNat 0x3c)
    (hrest : ltOnlyMarkers rest = true) : ltOnlyMarkers (wrapPara p ++ rest) = true := by
  simp only [wrapPara]
  by_cases h : (brEnc p).isEmpty
  · rw [if_pos h]
    simp only [List.cons_append, List.nil_append, List.append_assoc]
    rw [ltOk_p, ltOk_br, ltOk_close]
    exact hrest
  · rw [if_neg h]
    simp only [List.cons_append, List.nil_append, List.append_assoc]
    rw [ltOk_p]
    apply brEnc_ltOk p _ hp
    rw [ltOk_close]
    exact hrest

theorem paras_ltOk (ps : List (List Char))
    (h : ∀ p ∈ ps, ∀ x ∈ p, ¬ x = Char.ofNat 0x3c) :
    ltOnlyMarkers ((ps.map wrapPara).flatten) = true := by
  induction ps with
  | nil => rfl
  | cons p ps ih =>
    rw [List.map_cons, List.flatten_cons]
    exact wrapPara_ltOk p _ (h p (by simp))
      (ih (fun q hq x hx => h q (by simp [hq]) x hx))

/-- C10: `plainTextToHtml` escapes every HTML-special character of its
input, so its output contains no `>`, double quote or apostrophe
originating from the input text, and every left angle bracket in the output
begins one of the generated markers (paragraph open, paragraph close, line
break): input text cannot inject markup. -/
theorem C10_no_markup_injection (t : List Char) :
    ltOnlyMarkers (plainTextToHtml t) = true ∧
    (escapeHtml t).all (fun c =>
      !(c = Char.ofNat 0x3c || c = Char.ofNat 0x3e || c = Char.ofNat 0x22 ||
        c = Char.ofNat 0x27)) = true := by
  constructor
  · unfold plainTextToHtml
    by_cases h : t.isEmpty
    · rw [if_pos h]
      decide
    · rw [if_neg h]
      apply paras_ltOk
      intro p hp x hx
      have hxm : x ∈ escapeHtml t :=
        splitParasF_mem (escapeHtml t).length (escapeHtml t) p x hp hx
      intro hlt
      exact escapeHtml_no_special t x hxm (Or.inl hlt)
  · rw [List.all_eq_true]
    intro x hx
    have := escapeHtml_no_special t x hx
    push_neg at this
    simp only [Bool.not_eq_true', Bool.or_eq_false_iff, decide_eq_false_iff_not]
    exact ⟨⟨⟨this.1, this.2.1⟩, this.2.2.1⟩, this.2.2.2⟩

/-- After a rate-limit-class first failure, `geminiReply` is determined by
the outcome of the single retry call. -/
theorem geminiReply_quota (o : Nat → ProviderResult) (m : String)
    (hm : geminiCallMsg (o 0) = .error m) (hq : isQuotaError m.data = true) :
    geminiReply o =
      match geminiCallMsg (o 1) with
      | .ok t => { result := .ok t, calls := 2, sleeps := [getRetrySeconds m.data] }
      | .error m2 =>
        if isQuotaError m2.data then
          { result := .error (rateLimitMsg (getRetrySeconds m2.data)), calls := 2,
            sleeps := [getRetrySeconds m.data] }
        else { result := .error m2, calls := 2, sleeps := [getRetrySeconds m.data] } := by
  unfold geminiReply
  rw [hm]
  exact if_pos hq

/-- A first Gemini failure that is not rate-limit-class is terminal: one
call, no sleep, the original message. -/
theorem geminiReply_first_error (o : Nat → ProviderResult) (m : String)
    (hm : geminiCallMsg (o 0) = .error m) (hq : ¬ isQuotaError m.data = true) :
    geminiReply o = { result := .error m, calls := 1, sleeps := [] } := by
  unfold geminiReply
  rw [hm]
  exact if_neg hq

/-- C8, amended: a blank (empty or whitespace-only) apiKey fails
immediately with the configuration error and zero provider calls for every
provider; for a non-blank key the OpenAI branch performs exactly one call
with no sleep and no retry — so a rate-limit-class OpenAI failure is
terminal with its original message, and a null content is the
empty-response error — while the Gemini branch retries exactly once after a
rate-limit-class first failure, sleeping `getRetrySeconds` of that first
message (a value always capped at 60, and equal to the default 20 when
neither retry-delay pattern matches); a second rate-limit-class failure
surfaces as the terminal human-readable `rateLimitMsg`, a successful retry
returns its text, a non-rate-limit first failure is terminal after one
call, and a null Gemini content is the empty-response failure (an
empty-string content, by contrast, is returned as success, per the
C8 counterexample). -/
theorem C8_amended (key : String) (o : Nat → ProviderResult) :
    (jsTrim key.data = [] →
      ∀ p, generateReply p key o =
        { result := .error "API key is required.", calls := 0, sleeps := [] }) ∧
    (¬ jsTrim key.data = [] →
      ((generateReply .openai key o).calls = 1 ∧
       (generateReply .openai key o).sleeps = [] ∧
       (∀ m, o 0 = .err m → (generateReply .openai key o).result = .error m) ∧
       (o 0 = .ok none →
         (generateReply .openai key o).result =
           .error "Empty or invalid response from OpenAI.")) ∧
      (o 0 = .ok none →
        (generateReply .gemini key o).result =
          .error "Empty or invalid response from Gemini." ∧
        (generateReply .gemini key o).calls = 1) ∧
      (∀ m, geminiCallMsg (o 0) = .error m → isQuotaError m.data = true →
        (generateReply .gemini key o).calls = 2 ∧
        (generateReply .gemini key o).sleeps = [getRetrySeconds m.data] ∧
        (∀ t, geminiCallMsg (o 1) = .ok t →
          (generateReply .gemini key o).result = .ok t) ∧
        (∀ m2, geminiCallMsg (o 1) = .error m2 → isQuotaError m2.data = true →
          (generateReply .gemini key o).result =
            .error (rateLimitMsg (getRetrySeconds m2.data)))) ∧
      (∀ m, geminiCallMsg (o 0) = .error m → isQuotaError m.data = false →
        generateReply .gemini key o =
          { result := .error m, calls := 1, sleeps := [] })) ∧
    (∀ m : List Char, getRetrySeconds m ≤ 60 ∧
      (findRetryIn m = none → findRetryDelay m = none → getRetrySeconds m = 20)) := by
  refine ⟨?_, ?_, ?_⟩
  · intro hk p
    unfold generateReply
    rw [if_pos hk]
  · intro hk
    have hopen : generateReply .openai key o = openaiReply o := by
      unfold generateReply; rw [if_neg hk]
    have hgem : generateReply .gemini key o = geminiReply o := by
      unfold generateReply; rw [if_neg hk]
    refine ⟨⟨?_, ?_, ?_, ?_⟩, ?_, ?_, ?_⟩
    · rw [hopen]; unfold openaiReply
      cases h0 : o 0 with
      | err m => rfl
      | ok t => cases t <;> rfl
    · rw [hopen]; unfold openaiReply
      cases h0 : o 0 with
      | err m => rfl
      | ok t => cases t <;> rfl
    · intro m h0
      rw [hopen]; unfold openaiReply; rw [h0]
    · intro h0
      rw [hopen]; unfold openaiReply; rw [h0]
    · intro h0
      have hmsg : geminiCallMsg (o 0) = .error "Empty or invalid response from Gemini." := by
        rw [h0]
        rfl
      constructor <;>
        rw [hgem,
          geminiReply_first_error o "Empty or invalid response from Gemini." hmsg (by decide)]
    · intro m hm hq
      have hr := geminiReply_quota o m hm hq
      refine ⟨?_, ?_, ?_, ?_⟩
      · rw [hgem, hr]
        split
        · rfl
        · split <;> rfl
      · rw [hgem, hr]
        split
        · rfl
        · split <;> rfl
      · intro t h1
        rw [hgem, hr, h1]
      · intro m2 h1 hq2
        rw [hgem, hr]
        split
        · rename_i t heq
          rw [h1] at heq
          cases heq
        · rename_i m3 heq
          rw [h1] at heq
          cases heq
          rw [if_pos hq2]
    · intro m hm hq
      rw [hgem]
      exact geminiReply_first_error o m hm (by simp [hq])
  · intro m
    constructor
    · unfold getRetrySeconds
      cases h1 : findRetryIn m with
      | some v => exact Nat.min_le_right v 60
      | none =>
        cases h2 : findRetryDelay m with
        | some v => exact Nat.min_le_right v 60
        | none => decide
    · intro h1 h2
      unfold getRetrySeconds
      rw [h1, h2]

/-- Witness for `C8_amended` at the non-blank key "k" and an oracle on
which every Gemini call rejects with "429: retry in 7s": both calls are
rate-limit-class, the retry sleeps the suggested 7 seconds, and the
terminal result is the rate-limit message; additionally a message with no
retry-delay pattern gets the default 20 seconds. -/
theorem C8_amended_witness :
    (¬ jsTrim "k".data = []) ∧
    (generateReply .gemini "k" (fun _ => .err "429: retry in 7s")).calls = 2 ∧
    (generateReply .gemini "k" (fun _ => .err "429: retry in 7s")).sleeps = [7] ∧
    (generateReply .gemini "k" (fun _ => .err "429: retry in 7s")).result
      = .error (rateLimitMsg 7) ∧
    getRetrySeconds "no hint".data = 20 := by
  have h := C8_amended "k" (fun _ => .err "429: retry in 7s")
  have hq := (h.2.1 (by decide)).2.2.1 "429: retry in 7s" rfl (by decide)
  refine ⟨by decide, hq.1, ?_, ?_, ?_⟩
  · rw [hq.2.1]; decide
  · rw [hq.2.2.2 "429: retry in 7s" rfl (by decide)]; decide
  · exact (h.2.2 "no hint".data).2 (by decide) (by decide)



/-! Lemmas for the round-trip claim. -/

theorem blockTagsF_nil (f : Nat) : blockTagsF f [] = [] := by
  cases f <;> rfl

theorem collapseNlF_nil (f : Nat) : collapseNlF f [] = [] := by
  cases f <;> rfl

theorem stripEolF_nil (f : Nat) : stripEolF f [] = [] := by
  cases f <;> rfl

theorem tryTag_p (X : List Char) : tryTag ('p' :: '>' :: X) = some X := rfl

theorem tryTag_closep (X : List Char) : tryTag ('/' :: 'p' :: '>' :: X) = some X := rfl

theorem blockTagsF_openp (f : Nat) (X : List Char) :
    blockTagsF (f + 1) ("<p>".data ++ X) = Char.ofNat 0x0a :: blockTagsF f X := rfl

theorem blockTagsF_closep (f : Nat) (X : List Char) :
    blockTagsF (f + 1) ("</p>".data ++ X) = Char.ofNat 0x0a :: blockTagsF f X := rfl

theorem blockTagsF_brStep (f : Nat) (X : List Char) :
    blockTagsF (f + 1) ("<br>".data ++ X) = Char.ofNat 0x0a :: blockTagsF f X := rfl

theorem blockTagsF_cons (f : Nat) (c : Char) (r : List Char) :
    blockTagsF (f + 1) (c :: r) =
      if c = Char.ofNat 0x3c then
        match tryTag r with
        | some rest => Char.ofNat 0x0a :: blockTagsF f rest
        | none => c :: blockTagsF f r
      else c :: blockTagsF f r := rfl

theorem brEnc_cons (c : Char) (r : List Char) :
    brEnc (c :: r) =
      if c = Char.ofNat 0x0a then "<br>".data ++ brEnc r else c :: brEnc r := rfl

theorem collapseNlF_cons (f : Nat) (c : Char) (r : List Char) :
    collapseNlF (f + 1) (c :: r) =
      if c = Char.ofNat 0x0a && r.take 2 = [Char.ofNat 0x0a, Char.ofNat 0x0a] then
        Char.ofNat 0x0a :: Char.ofNat 0x0a :: collapseNlF f (r.dropWhile (· = Char.ofNat 0x0a))
      else c :: collapseNlF f r := rfl

theorem stripEolF_cons (f : Nat) (c : Char) (r : List Char) :
    stripEolF (f + 1) (c :: r) =
      if isSpace c then
        if (r.dropWhile isSpace).isEmpty then []
        else
          match lastNlPos (r.takeWhile isSpace) with
          | some q => stripEolF f ((r.takeWhile isSpace).drop q ++ r.dropWhile isSpace)
          | none => c :: stripEolF f r
      else c :: stripEolF f r := rfl

theorem replaceBrF_cons (f : Nat) (c : Char) (r : List Char) :
    replaceBrF (f + 1) (c :: r) =
      if c = Char.ofNat 0x3c then
        match tryBr r with
        | some rest => Char.ofNat 0x0a :: replaceBrF f rest
        | none => c :: replaceBrF f r
      else c :: replaceBrF f r := rfl

theorem stripTagsF_cons (f : Nat) (c : Char) (r : List Char) :
    stripTagsF (f + 1) (c :: r) =
      if c = Char.ofNat 0x3c then
        match findGt r with
        | some rest => stripTagsF f rest
        | none => c :: stripTagsF f r
      else c :: stripTagsF f r := rfl

theorem replaceEntF_cons (ps : List Char) (rep : Char) (f : Nat) (c : Char) (r : List Char) :
    replaceEntF ps rep (f + 1) (c :: r) =
      if c = Char.ofNat 0x26 && ps.isPrefixOf r then
        rep :: replaceEntF ps rep f (r.drop ps.length)
      else c :: replaceEntF ps rep f r := rfl

theorem replaceAposF_cons (f : Nat) (c : Char) (r : List Char) :
    replaceAposF (f + 1) (c :: r) =
      if c = Char.ofNat 0x26 && "#39;".data.isPrefixOf r then
        Char.ofNat 0x27 :: replaceAposF f (r.drop 4)
      else if c = Char.ofNat 0x26 && "apos;".data.isPrefixOf r then
        Char.ofNat 0x27 :: replaceAposF f (r.drop 5)
      else c :: replaceAposF f r := rfl

theorem splitParasF_cons (f : Nat) (c : Char) (r : List Char) :
    splitParasF (f + 1) (c :: r) =
      if c = Char.ofNat 0x0a && r.head? = some (Char.ofNat 0x0a) then
        [] :: splitParasF f (r.dropWhile (· = Char.ofNat 0x0a))
      else (splitParasF f r).modifyHead (c :: ·) := rfl

theorem escChar_not_special (c : Char) (h : isHtmlSpecial c = false) :
    escChar c = [c] := by
  unfold isHtmlSpecial at h
  simp only [Bool.or_eq_false_iff, decide_eq_false_iff_not] at h
  unfold escChar
  rw [if_neg h.1.1.1.1, if_neg h.1.1.1.2, if_neg h.1.1.2, if_neg h.1.2, if_neg h.2]

theorem escapeHtml_id (t : List Char)
    (h : t.all (fun c => !(isHtmlSpecial c)) = true) : escapeHtml t = t := by
  induction t with
  | nil => rfl
  | cons c r ih =>
    rw [List.all_cons, Bool.and_eq_true] at h
    show escChar c ++ escapeHtml r = c :: r
    rw [escChar_not_special c (by simpa using h.1), ih h.2]
    rfl

theorem isLineTerm_isSpace (c : Char) (h : isLineTerm c = true) : isSpace c = true := by
  unfold isLineTerm at h
  unfold isSpace
  simp only [Bool.or_eq_true, Bool.and_eq_true, decide_eq_true_eq] at h ⊢
  omega

theorem notSpace_notTerm (b : Char) (h : isSpace b = false) : isLineTerm b = false := by
  cases ht : isLineTerm b with
  | false => rfl
  | true =>
    rw [isLineTerm_isSpace b ht] at h
    cases h

theorem nlCleanB_cons (a b : Char) (r : List Char) (h : nlCleanB (a :: b :: r) = true) :
    (isSpace a && isLineTerm b) = false ∧ nlCleanB (b :: r) = true := by
  simp only [nlCleanB, Bool.and_eq_true, Bool.not_eq_true'] at h
  exact ⟨h.1, h.2⟩

theorem nlCleanB_tail (c : Char) (r : List Char) (h : nlCleanB (c :: r) = true) :
    nlCleanB r = true := by
  cases r with
  | nil => rfl
  | cons b z => exact (nlCleanB_cons c b z h).2

theorem splitParasF_nosplit :
    ∀ (f : Nat) (s : List Char), s.length ≤ f → nlCleanB s = true →
      splitParasF f s = [s] := by
  intro f
  induction f with
  | zero =>
    intro s hf _
    cases s with
    | nil => rfl
    | cons c r => exact absurd hf (by simp)
  | succ f ih =>
    intro s hf hn
    cases s with
    | nil => rfl
    | cons c r =>
      have hcond : (c = Char.ofNat 0x0a && r.head? = some (Char.ofNat 0x0a)) = false := by
        cases r with
        | nil => by_cases hc : c = Char.ofNat 0x0a <;> simp [hc]
        | cons b z =>
          by_cases hc : c = Char.ofNat 0x0a
          · have h2 := (nlCleanB_cons c b z hn).1
            have hsp : isSpace c = true := by rw [hc]; decide
            rw [hsp] at h2
            have hb : isLineTerm b = false := by simpa using h2
            have hbn : ¬ b = Char.ofNat 0x0a := by
              intro hh
              rw [hh] at hb
              exact absurd hb (by decide)
            simp [hbn]
          · simp [hc]
      rw [splitParasF_cons, hcond, if_neg (by decide)]
      rw [ih r (by simpa using Nat.lt_succ_iff.mp (Nat.lt_of_lt_of_le (by simp) hf)) (nlCleanB_tail c r hn)]
      rfl

theorem brEnc_nil : brEnc [] = [] := rfl

theorem brEnc_ne_nil (t : List Char) (h : ¬ t = []) : ¬ brEnc t = [] := by
  cases t with
  | nil => exact absurd rfl h
  | cons c r =>
    rw [brEnc_cons]
    by_cases hc : c = Char.ofNat 0x0a
    · rw [if_pos hc]
      simp
    · rw [if_neg hc]
      simp

theorem brEnc_length (t : List Char) : t.length ≤ (brEnc t).length := by
  induction t with
  | nil => simp [brEnc]
  | cons c r ih =>
    rw [brEnc_cons]
    by_cases hc : c = Char.ofNat 0x0a
    · rw [if_pos hc]
      simp only [List.length_append, List.length_cons]
      omega
    · rw [if_neg hc]
      simpa using ih

theorem blockTagsF_brEnc :
    ∀ (u : List Char) (f : Nat), u.length + 1 ≤ f →
      (∀ c ∈ u, isHtmlSpecial c = false) →
      blockTagsF f (brEnc u ++ "</p>".data) = u ++ [Char.ofNat 0x0a] := by
  intro u
  induction u with
  | nil =>
    intro f hf _
    obtain ⟨g, rfl⟩ : ∃ g, f = g + 1 := ⟨f - 1, by omega⟩
    show blockTagsF (g + 1) ([] ++ "</p>".data) = [] ++ [Char.ofNat 0x0a]
    rw [List.nil_append, List.nil_append,
      show ("</p>".data : List Char) = "</p>".data ++ [] from (List.append_nil _).symm,
      blockTagsF_closep, blockTagsF_nil]
  | cons c r ih =>
    intro f hf hspec
    obtain ⟨g, rfl⟩ : ∃ g, f = g + 1 := ⟨f - 1, by omega⟩
    have hfg : r.length + 1 ≤ g := by
      simp only [List.length_cons] at hf
      omega
    have hrec := ih g hfg (fun x hx => hspec x (List.mem_cons_of_mem c hx))
    rw [brEnc_cons]
    by_cases hc : c = Char.ofNat 0x0a
    · rw [if_pos hc, List.append_assoc, blockTagsF_brStep, hrec, hc]
      rfl
    · have hcs := hspec c (List.mem_cons_self c r)
      have hlt : ¬ c = Char.ofNat 0x3c := by
        intro hh
        rw [hh] at hcs
        exact absurd hcs (by decide)
      rw [if_neg hc, List.cons_append, blockTagsF_cons, if_neg hlt, hrec]
      rfl

theorem replaceBrF_noop :
    ∀ (s : List Char) (f : Nat), (∀ c ∈ s, ¬ c = Char.ofNat 0x3c) →
      replaceBrF f s = s := by
  intro s
  induction s with
  | nil => intro f _; cases f <;> rfl
  | cons c r ih =>
    intro f h
    cases f with
    | zero => rfl
    | succ f =>
      rw [replaceBrF_cons, if_neg (h c (List.mem_cons_self c r)),
        ih f (fun x hx => h x (List.mem_cons_of_mem c hx))]

theorem stripTagsF_noop :
    ∀ (s : List Char) (f : Nat), (∀ c ∈ s, ¬ c = Char.ofNat 0x3c) →
      stripTagsF f s = s := by
  intro s
  induction s with
  | nil => intro f _; cases f <;> rfl
  | cons c r ih =>
    intro f h
    cases f with
    | zero => rfl
    | succ f =>
      rw [stripTagsF_cons, if_neg (h c (List.mem_cons_self c r)),
        ih f (fun x hx => h x (List.mem_cons_of_mem c hx))]

theorem replaceEntF_noop (ps : List Char) (rep : Char) :
    ∀ (s : List Char) (f : Nat), (∀ c ∈ s, ¬ c = Char.ofNat 0x26) →
      replaceEntF ps rep f s = s := by
  intro s
  induction s with
  | nil => intro f _; cases f <;> rfl
  | cons c r ih =>
    intro f h
    cases f with
    | zero => rfl
    | succ f =>
      rw [replaceEntF_cons, if_neg (by simp [h c (List.mem_cons_self c r)]),
        ih f (fun x hx => h x (List.mem_cons_of_mem c hx))]

theorem replaceAposF_noop :
    ∀ (s : List Char) (f : Nat), (∀ c ∈ s, ¬ c = Char.ofNat 0x26) →
      replaceAposF f s = s := by
  intro s
  induction s with
  | nil => intro f _; cases f <;> rfl
  | cons c r ih =>
    intro f h
    cases f with
    | zero => rfl
    | succ f =>
      rw [replaceAposF_cons, if_neg (by simp [h c (List.mem_cons_self c r)]),
        if_neg (by simp [h c (List.mem_cons_self c r)]),
        ih f (fun x hx => h x (List.mem_cons_of_mem c hx))]

theorem lastNlPos_none :
    ∀ (l : List Char), (∀ x ∈ l, isLineTerm x = false) → lastNlPos l = none := by
  intro l
  induction l with
  | nil => intro _; rfl
  | cons c r ih =>
    intro h
    show (match lastNlPos r with
      | some q => some (q + 1)
      | none => if isLineTerm c then some 0 else none) = none
    rw [ih (fun x hx => h x (List.mem_cons_of_mem c hx)),
      if_neg (by simp [h c (List.mem_cons_self c r)])]

theorem noNl_takeWhile :
    ∀ (r : List Char) (c : Char), isSpace c = true → nlCleanB (c :: r) = true →
      ∀ x ∈ r.takeWhile isSpace, isLineTerm x = false := by
  intro r
  induction r with
  | nil => intro c _ _ x hx; simp [List.takeWhile] at hx
  | cons b z ih =>
    intro c hc hn
    obtain ⟨h1, h3⟩ := nlCleanB_cons c b z hn
    rw [hc] at h1
    have hb : isLineTerm b = false := by simpa using h1
    intro x hx
    rw [List.takeWhile_cons] at hx
    by_cases hbs : isSpace b
    · rw [if_pos hbs] at hx
      rcases List.mem_cons.mp hx with rfl | hx2
      · exact hb
      · exact ih b hbs h3 x hx2
    · rw [if_neg hbs] at hx
      cases hx

theorem dropWhile_append_of_mem_not (p : Char → Bool) :
    ∀ (A B : List Char), (∃ x ∈ A, p x = false) →
      (A ++ B).dropWhile p = A.dropWhile p ++ B := by
  intro A
  induction A with
  | nil => rintro B ⟨x, hx, _⟩; cases hx
  | cons a z ih =>
    rintro B ⟨x, hx, hpx⟩
    by_cases ha : p a
    · have hxz : x ∈ z := by
        rcases List.mem_cons.mp hx with h | h
        · subst h; rw [ha] at hpx; cases hpx
        · exact h
      simp only [List.cons_append, List.dropWhile_cons, ha, if_true]
      exact ih B ⟨x, hxz, hpx⟩
    · have ha' : p a = false := by revert ha; cases p a <;> simp
      simp [List.dropWhile_cons, ha']

theorem stripEolF_clean :
    ∀ (u : List Char) (f : Nat), u.length + 1 ≤ f → nlCleanB u = true →
      (∀ x, u.getLast? = some x → isSpace x = false) →
      stripEolF f (u ++ [Char.ofNat 0x0a]) = u := by
  intro u
  induction u with
  | nil =>
    intro f hf _ _
    obtain ⟨g, rfl⟩ : ∃ g, f = g + 1 := ⟨f - 1, by omega⟩
    show stripEolF (g + 1) (Char.ofNat 0x0a :: []) = []
    rw [stripEolF_cons, if_pos (by decide), if_pos (by decide)]
  | cons c r ih =>
    intro f hf hn hl
    obtain ⟨g, rfl⟩ : ∃ g, f = g + 1 := ⟨f - 1, by omega⟩
    have hfg : r.length + 1 ≤ g := by
      simp only [List.length_cons] at hf
      omega
    cases r with
    | nil =>
      have hcs : isSpace c = false := hl c rfl
      show stripEolF (g + 1) (c :: [Char.ofNat 0x0a]) = [c]
      rw [stripEolF_cons, if_neg (by simp [hcs])]
      obtain ⟨g2, rfl⟩ : ∃ g2, g = g2 + 1 := ⟨g - 1, by omega⟩
      rw [stripEolF_cons, if_pos (by decide), if_pos (by decide)]
    | cons b z =>
      have hlr : ∀ x, (b :: z).getLast? = some x → isSpace x = false := by
        intro x hx
        exact hl x (by rw [List.getLast?_cons_cons]; exact hx)
      have hrec := ih g hfg (nlCleanB_tail c _ hn) hlr
      rw [List.cons_append, stripEolF_cons]
      by_cases hc : isSpace c
      · rw [if_pos hc]
        have hbzne : (b :: z) ≠ [] := by simp
        have hex : ∃ x ∈ b :: z, isSpace x = false :=
          ⟨(b :: z).getLast hbzne, List.getLast_mem hbzne,
            hlr _ (List.getLast?_eq_getLast (b :: z) hbzne)⟩
        have hdw : ((b :: z) ++ [Char.ofNat 0x0a]).dropWhile isSpace
            = (b :: z).dropWhile isSpace ++ [Char.ofNat 0x0a] :=
          dropWhile_append_of_mem_not isSpace _ _ hex
        have htw : ((b :: z) ++ [Char.ofNat 0x0a]).takeWhile isSpace
            = (b :: z).takeWhile isSpace :=
          takeWhile_append_of_mem_not isSpace _ _ hex
        rw [hdw, htw, if_neg (by simp),
          lastNlPos_none _ (noNl_takeWhile (b :: z) c hc hn)]
        show c :: stripEolF g ((b :: z) ++ [Char.ofNat 0x0a]) = c :: (b :: z)
        rw [hrec]
      · rw [if_neg hc]
        rw [hrec]

theorem collapseNlF_clean :
    ∀ (u : List Char) (f : Nat), nlCleanB u = true →
      collapseNlF f (u ++ [Char.ofNat 0x0a]) = u ++ [Char.ofNat 0x0a] := by
  intro u
  induction u with
  | nil =>
    intro f _
    cases f with
    | zero => rfl
    | succ f =>
      show collapseNlF (f + 1) (Char.ofNat 0x0a :: []) = [Char.ofNat 0x0a]
      rw [collapseNlF_cons, if_neg (by decide), collapseNlF_nil]
  | cons c r ih =>
    intro f hn
    cases f with
    | zero => rfl
    | succ f =>
      rw [List.cons_append, collapseNlF_cons]
      have hcond : (c = Char.ofNat 0x0a &&
          (r ++ [Char.ofNat 0x0a]).take 2 = [Char.ofNat 0x0a, Char.ofNat 0x0a]) = false := by
        cases r with
        | nil => by_cases hc : c = Char.ofNat 0x0a <;> simp [hc]
        | cons b z =>
          by_cases hc : c = Char.ofNat 0x0a
          · have h2 := (nlCleanB_cons c b z hn).1
            have hsp : isSpace c = true := by rw [hc]; decide
            rw [hsp] at h2
            have hb : isLineTerm b = false := by simpa using h2
            have hbn : ¬ b = Char.ofNat 0x0a := by
              intro hh
              rw [hh] at hb
              exact absurd hb (by decide)
            simp [hbn, List.take]
          · simp [hc]
      rw [hcond, if_neg (by decide), ih f (nlCleanB_tail c r hn)]

theorem trimRight_id (l : List Char)
    (hl : ∀ x, l.getLast? = some x → isSpace x = false) : trimRight l = l := by
  have hde := trimRight_prefix_decomp l
  cases hW : (l.reverse.takeWhile isSpace).reverse with
  | nil =>
    rw [hW, List.append_nil] at hde
    exact hde
  | cons a w =>
    exfalso
    have hsp : ∀ x ∈ a :: w, isSpace x = true := by
      rw [← hW]
      exact trimRight_all_ws l
    have hne : (a :: w) ≠ [] := by simp
    have hx : l.getLast? = some ((a :: w).getLast hne) := by
      conv_lhs => rw [← hde, hW]
      rw [List.getLast?_append_of_ne_nil _ hne]
      exact List.getLast?_eq_getLast (a :: w) hne
    have h1 := hl _ hx
    have h2 := hsp _ (List.getLast_mem hne)
    rw [h2] at h1
    cases h1

theorem jsTrim_clean_id (t : List Char)
    (hh : ∀ c, t.head? = some c → isSpace c = false)
    (hl : ∀ x, t.getLast? = some x → isSpace x = false) : jsTrim t = t := by
  cases t with
  | nil => rfl
  | cons c r =>
    have hc : isSpace c = false := hh c rfl
    rw [jsTrim_cons_not c r hc]
    have hlr : ∀ x, r.getLast? = some x → isSpace x = false := by
      intro x hx
      cases r with
      | nil => cases hx
      | cons b z =>
        refine hl x ?_
        rw [List.getLast?_cons_cons]
        exact hx
    rw [trimRight_id r hlr]

theorem jsTrim_lt_cons (r : List Char) : ¬ jsTrim (Char.ofNat 0x3c :: r) = [] := by
  rw [jsTrim_cons_not _ _ (by decide)]
  simp

theorem nlCleanB_nl_cons (t : List Char)
    (hh : ∀ c, t.head? = some c → isSpace c = false) (hn : nlCleanB t = true) :
    nlCleanB (Char.ofNat 0x0a :: t) = true := by
  cases t with
  | nil => rfl
  | cons b z =>
    have hb : isSpace b = false := hh b rfl
    simp only [nlCleanB, Bool.and_eq_true, Bool.not_eq_true']
    exact ⟨by simp [notSpace_notTerm b hb], hn⟩

/-- C2, amended: for hygienic plain text — no HTML-special characters, no
whitespace directly before a line terminator (line feed, carriage return,
line or paragraph separator; in particular no blank-line runs), and no
leading or trailing whitespace — the conversion round-trips:
`htmlToPlainText (plainTextToHtml t) = t`; the anchors hold as claimed:
`plainTextToHtml ""` is the single empty-paragraph form and
`htmlToPlainText` of any whitespace-only string is empty.  (The whitespace
hygiene is necessary: per the C2 counterexample, text that merely avoids
HTML-special characters and blank-line runs, such as "a ", does not
round-trip, because the multiline trailing-whitespace pass deletes
whitespace before every line terminator and the result is trimmed;
whitespace after a line terminator, as in "a\n b", is harmless and
allowed.) -/
theorem C2_amended (t : List Char) (h : cleanText t = true) :
    htmlToPlainText (plainTextToHtml t) = t ∧
    plainTextToHtml [] = "<p></p>".data ∧
    (∀ s : List Char, jsTrim s = [] → htmlToPlainText s = []) := by
  refine ⟨?_, rfl, ?_⟩
  · simp only [cleanText, Bool.and_eq_true] at h
    obtain ⟨⟨⟨hall, hnl⟩, hheadm⟩, hlastm⟩ := h
    have hspec : ∀ c ∈ t, isHtmlSpecial c = false := by
      intro c hc
      have := List.all_eq_true.mp hall c hc
      simpa using this
    have hhead : ∀ c, t.head? = some c → isSpace c = false := by
      intro c hc
      rw [hc] at hheadm
      simpa using hheadm
    have hlast : ∀ c, t.getLast? = some c → isSpace c = false := by
      intro c hc
      rw [hc] at hlastm
      simpa using hlastm
    by_cases ht : t = []
    · subst ht
      decide
    · have hesc : escapeHtml t = t := escapeHtml_id t hall
      have hne : ¬ t.isEmpty = true := by simpa [List.isEmpty_iff] using ht
      have hsplit : splitParas (escapeHtml t) = [t] := by
        rw [hesc]
        exact splitParasF_nosplit t.length t le_rfl hnl
      have hbrne : ¬ (brEnc t).isEmpty = true := by
        simpa [List.isEmpty_iff] using brEnc_ne_nil t ht
      have hhtml : plainTextToHtml t = "<p>".data ++ (brEnc t ++ "</p>".data) := by
        unfold plainTextToHtml
        rw [if_neg hne, hsplit]
        simp only [List.map_cons, List.map_nil, List.flatten_cons, List.flatten_nil,
          List.append_nil, wrapPara]
        rw [if_neg hbrne]
        exact List.append_assoc _ _ _
      have hjt : ¬ jsTrim (plainTextToHtml t) = [] := by
        rw [hhtml]
        show ¬ jsTrim (Char.ofNat 0x3c :: ('p' :: '>' :: (brEnc t ++ "</p>".data))) = []
        exact jsTrim_lt_cons _
      have hblock : blockTags (plainTextToHtml t)
          = Char.ofNat 0x0a :: (t ++ [Char.ofNat 0x0a]) := by
        rw [hhtml]
        unfold blockTags
        obtain ⟨m, hm, hge⟩ : ∃ m, ("<p>".data ++ (brEnc t ++ "</p>".data)).length = m + 1 ∧
            t.length + 1 ≤ m := by
          refine ⟨(brEnc t).length + 6, ?_, ?_⟩
          · rw [List.length_append, List.length_append]
            show 3 + ((brEnc t).length + 4) = (brEnc t).length + 6 + 1
            omega
          · have := brEnc_length t
            omega
        rw [hm, blockTagsF_openp, blockTagsF_brEnc t m hge hspec]
      have hmemns : ∀ c ∈ Char.ofNat 0x0a :: (t ++ [Char.ofNat 0x0a]),
          isHtmlSpecial c = false := by
        intro c hc
        rcases List.mem_cons.mp hc with rfl | h2
        · decide
        · rcases List.mem_append.mp h2 with h3 | h3
          · exact hspec c h3
          · simp only [List.mem_singleton] at h3
            subst h3
            decide
      have hnolt : ∀ c ∈ Char.ofNat 0x0a :: (t ++ [Char.ofNat 0x0a]),
          ¬ c = Char.ofNat 0x3c := by
        intro c hc hh
        have := hmemns c hc
        rw [hh] at this
        exact absurd this (by decide)
      have hnoamp : ∀ c ∈ Char.ofNat 0x0a :: (t ++ [Char.ofNat 0x0a]),
          ¬ c = Char.ofNat 0x26 := by
        intro c hc hh
        have := hmemns c hc
        rw [hh] at this
        exact absurd this (by decide)
      have hrb : replaceBr (blockTags (plainTextToHtml t))
          = Char.ofNat 0x0a :: (t ++ [Char.ofNat 0x0a]) := by
        rw [hblock]
        exact replaceBrF_noop _ _ hnolt
      have hst : stripTags (Char.ofNat 0x0a :: (t ++ [Char.ofNat 0x0a]))
          = Char.ofNat 0x0a :: (t ++ [Char.ofNat 0x0a]) :=
        stripTagsF_noop _ _ hnolt
      have hent : ∀ (ps : List Char) (rep : Char),
          replaceEnt ps rep (Char.ofNat 0x0a :: (t ++ [Char.ofNat 0x0a]))
            = Char.ofNat 0x0a :: (t ++ [Char.ofNat 0x0a]) :=
        fun ps rep => replaceEntF_noop ps rep _ _ hnoamp
      have hapos : replaceApos (Char.ofNat 0x0a :: (t ++ [Char.ofNat 0x0a]))
          = Char.ofNat 0x0a :: (t ++ [Char.ofNat 0x0a]) :=
        replaceAposF_noop _ _ hnoamp
      have hnlu : nlCleanB (Char.ofNat 0x0a :: t) = true := nlCleanB_nl_cons t hhead hnl
      have hcnl : collapseNl (Char.ofNat 0x0a :: (t ++ [Char.ofNat 0x0a]))
          = Char.ofNat 0x0a :: (t ++ [Char.ofNat 0x0a]) := by
        show collapseNlF (Char.ofNat 0x0a :: (t ++ [Char.ofNat 0x0a])).length
          (Char.ofNat 0x0a :: (t ++ [Char.ofNat 0x0a])) = _
        rw [show Char.ofNat 0x0a :: (t ++ [Char.ofNat 0x0a])
            = (Char.ofNat 0x0a :: t) ++ [Char.ofNat 0x0a] from rfl]
        exact collapseNlF_clean (Char.ofNat 0x0a :: t) _ hnlu
      have hlastu : ∀ x, (Char.ofNat 0x0a :: t).getLast? = some x → isSpace x = false := by
        intro x hx
        refine hlast x ?_
        cases t with
        | nil => exact absurd rfl ht
        | cons b z =>
          rw [List.getLast?_cons_cons] at hx
          exact hx
      have hseol : stripEol (Char.ofNat 0x0a :: (t ++ [Char.ofNat 0x0a]))
          = Char.ofNat 0x0a :: t := by
        show stripEolF (Char.ofNat 0x0a :: (t ++ [Char.ofNat 0x0a])).length
          (Char.ofNat 0x0a :: (t ++ [Char.ofNat 0x0a])) = _
        rw [show Char.ofNat 0x0a :: (t ++ [Char.ofNat 0x0a])
            = (Char.ofNat 0x0a :: t) ++ [Char.ofNat 0x0a] from rfl]
        exact stripEolF_clean (Char.ofNat 0x0a :: t) _ (by simp) hnlu hlastu
      have hjtrim : jsTrim (Char.ofNat 0x0a :: t) = t := by
        rw [jsTrim_cons_ws _ _ (by decide)]
        exact jsTrim_clean_id t hhead hlast
      simp only [htmlToPlainText]
      rw [if_neg hjt, hrb, hst, hent "nbsp;".data (Char.ofNat 0x20),
        hent "amp;".data (Char.ofNat 0x26), hent "lt;".data (Char.ofNat 0x3c),
        hent "gt;".data (Char.ofNat 0x3e), hent "quot;".data (Char.ofNat 0x22),
        hapos, hcnl, hseol, hjtrim]
  · intro s hs
    unfold htmlToPlainText
    rw [if_pos hs]

/-- Witness for `C2_amended` at the hygienic two-line text "ab\ncd" and at
"a\n b" (whitespace after a newline is allowed): both round-trip exactly;
the empty input yields the empty paragraph and a whitespace-only input
converts to the empty string; and the hypothesis correctly rejects
whitespace before a carriage return ("a \rb"), where the multiline
trailing-whitespace pass deletes the space so the round trip would fail. -/
theorem C2_amended_witness :
    cleanText "ab\ncd".data = true ∧
    htmlToPlainText (plainTextToHtml "ab\ncd".data) = "ab\ncd".data ∧
    cleanText "a\n b".data = true ∧
    htmlToPlainText (plainTextToHtml "a\n b".data) = "a\n b".data ∧
    plainTextToHtml [] = "<p></p>".data ∧
    jsTrim "  ".data = [] ∧
    htmlToPlainText "  ".data = [] ∧
    cleanText "a \rb".data = false ∧
    htmlToPlainText (plainTextToHtml "a \rb".data) = "a\rb".data := by
  have h := C2_amended "ab\ncd".data (by decide)
  have h2 := C2_amended "a\n b".data (by decide)
  exact ⟨by decide, h.1, by decide, h2.1, h.2.1, by decide,
    h.2.2 "  ".data (by decide), by decide, by decide⟩

/-! Lemmas for the cascade-delete claim: association-table basics. -/

theorem lookupKey_mem (x : String) (docs : Tbl) (d : JsDoc)
    (h : lookupKey x docs = some d) : (x, d) ∈ docs := by
  unfold lookupKey at h
  cases hf : List.find? (fun e => e.1 = x) docs with
  | none => rw [hf] at h; cases h
  | some e =>
    rw [hf] at h
    have he1 : e.1 = x := by
      have := List.find?_some hf
      simpa using this
    have hmem := List.mem_of_find?_eq_some hf
    have hed : e.2 = d := by simpa using h
    have : (x, d) = e := by
      rw [← he1, ← hed]
    rw [this]
    exact hmem

theorem lookupKey_eq_of_mem :
    ∀ (docs : Tbl) (e : String × JsDoc), (keys docs).Nodup → e ∈ docs →
      lookupKey e.1 docs = some e.2 := by
  intro docs
  induction docs with
  | nil => intro e _ he; cases he
  | cons a r ih =>
    intro e hnd he
    rw [keys, List.map_cons, List.nodup_cons] at hnd
    rcases List.mem_cons.mp he with rfl | hr
    · unfold lookupKey
      rw [List.find?_cons_of_pos _ (by simp)]
      rfl
    · have hne : ¬ a.1 = e.1 := by
        intro hh
        exact hnd.1 (hh ▸ List.mem_map_of_mem Prod.fst hr)
      unfold lookupKey
      rw [List.find?_cons_of_neg _ (by simpa using hne)]
      exact ih e hnd.2 hr

theorem nodup_keys_filter (docs : Tbl) (q : String × JsDoc → Bool)
    (hnd : (keys docs).Nodup) : (keys (docs.filter q)).Nodup :=
  List.Nodup.sublist (List.Sublist.map Prod.fst (List.filter_sublist docs)) hnd

theorem lookupKey_filter_iff (docs : Tbl) (q : String × JsDoc → Bool)
    (hnd : (keys docs).Nodup) (x : String) (d : JsDoc) :
    lookupKey x (docs.filter q) = some d ↔
      lookupKey x docs = some d ∧ q (x, d) = true := by
  constructor
  · intro h
    have hmem := lookupKey_mem x _ d h
    rw [List.mem_filter] at hmem
    exact ⟨lookupKey_eq_of_mem docs (x, d) hnd hmem.1, hmem.2⟩
  · rintro ⟨h1, h2⟩
    have hmem : (x, d) ∈ docs.filter q :=
      List.mem_filter.mpr ⟨lookupKey_mem x docs d h1, h2⟩
    exact lookupKey_eq_of_mem _ (x, d) (nodup_keys_filter docs q hnd) hmem

theorem lookupKey_isSome_of_mem_keys (docs : Tbl) (x : String) (hx : x ∈ keys docs) :
    ∃ d, lookupKey x docs = some d := by
  unfold keys at hx
  rcases List.mem_map.mp hx with ⟨e, he, he1⟩
  cases hf : List.find? (fun e2 => e2.1 = x) docs with
  | none =>
    rw [List.find?_eq_none] at hf
    exact absurd he1 (by simpa using hf e he)
  | some e2 => exact ⟨e2.2, by unfold lookupKey; rw [hf]; rfl⟩

theorem mem_keys_of_lookupKey (docs : Tbl) (x : String) (d : JsDoc)
    (h : lookupKey x docs = some d) : x ∈ keys docs := by
  have := lookupKey_mem x docs d h
  exact List.mem_map_of_mem Prod.fst this

theorem parentEff_some_iff (docs : Tbl) (x : String) (p : String) :
    parentEff docs x = some p ↔
      ∃ d, lookupKey x docs = some d ∧ d.parentId = some (some p) := by
  unfold parentEff
  cases hl : lookupKey x docs with
  | none => simp
  | some d =>
    cases hp : d.parentId with
    | none => simp [hp]
    | some o =>
      cases o with
      | none => simp [hp]
      | some z => simp [hp]

theorem parentEff_mem_keys (docs : Tbl) (x p : String)
    (h : parentEff docs x = some p) : x ∈ keys docs := by
  rcases (parentEff_some_iff docs x p).mp h with ⟨d, hd, _⟩
  exact mem_keys_of_lookupKey docs x d hd

theorem parentEff_filter (docs : Tbl) (q : String × JsDoc → Bool)
    (hnd : (keys docs).Nodup) (x p : String)
    (h : parentEff (docs.filter q) x = some p) : parentEff docs x = some p := by
  rcases (parentEff_some_iff _ x p).mp h with ⟨d, hd, hpar⟩
  exact (parentEff_some_iff docs x p).mpr
    ⟨d, ((lookupKey_filter_iff docs q hnd x d).mp hd).1, hpar⟩

theorem parentEff_filter_of_kept (docs : Tbl) (q : String × JsDoc → Bool)
    (hnd : (keys docs).Nodup) (x p : String) (d : JsDoc)
    (hl : lookupKey x docs = some d) (hq : q (x, d) = true)
    (h : parentEff docs x = some p) : parentEff (docs.filter q) x = some p := by
  rcases (parentEff_some_iff docs x p).mp h with ⟨d2, hd2, hpar⟩
  rw [hl] at hd2
  cases hd2
  exact (parentEff_some_iff _ x p).mpr
    ⟨d, (lookupKey_filter_iff docs q hnd x d).mpr ⟨hl, hq⟩, hpar⟩

theorem wfTable_filter (docs : Tbl) (q : String × JsDoc → Bool)
    (h : WfTable docs) : WfTable (docs.filter q) :=
  ⟨nodup_keys_filter docs q h.1, fun e he => h.2 e (List.mem_filter.mp he).1⟩

theorem acyclicT_filter (docs : Tbl) (q : String × JsDoc → Bool)
    (hnd : (keys docs).Nodup) (h : AcyclicT docs) : AcyclicT (docs.filter q) :=
  fun x hx =>
    h x (Relation.TransGen.mono (fun a b hab => parentEff_filter docs q hnd a b hab) hx)

/-! Lemmas for the cascade-delete claim: the bounded chain walk and its
agreement with the reflexive-transitive closure. -/

theorem chainMemB_zero (docs : Tbl) (x y : String) :
    chainMemB docs 0 x y = decide (x = y) := rfl

theorem chainMemB_succ (docs : Tbl) (n : Nat) (x y : String) :
    chainMemB docs (n + 1) x y =
      (x = y ||
        match parentEff docs x with
        | some p => chainMemB docs n p y
        | none => false) := rfl

theorem iterParent_zero (docs : Tbl) (x : String) : iterParent docs 0 x = some x := rfl

theorem iterParent_succ (docs : Tbl) (n : Nat) (x : String) :
    iterParent docs (n + 1) x =
      match parentEff docs x with
      | some p => iterParent docs n p
      | none => none := rfl

theorem chainMemB_iff_iter :
    ∀ (n : Nat) (docs : Tbl) (x y : String),
      chainMemB docs n x y = true ↔ ∃ k, k ≤ n ∧ iterParent docs k x = some y := by
  intro n
  induction n with
  | zero =>
    intro docs x y
    rw [chainMemB_zero]
    constructor
    · intro h
      exact ⟨0, le_rfl, by rw [iterParent_zero]; simpa using h⟩
    · rintro ⟨k, hk, hit⟩
      interval_cases k
      rw [iterParent_zero] at hit
      simpa using hit
  | succ n ih =>
    intro docs x y
    rw [chainMemB_succ]
    cases hfx : parentEff docs x with
    | none =>
      constructor
      · intro h
        simp only [Bool.or_eq_true] at h
        rcases h with h | h
        · exact ⟨0, Nat.zero_le _, by rw [iterParent_zero]; simpa using h⟩
        · cases h
      · rintro ⟨k, hk, hit⟩
        cases k with
        | zero =>
          rw [iterParent_zero] at hit
          simp [Option.some.inj hit]
        | succ k =>
          rw [iterParent_succ, hfx] at hit
          cases hit
    | some p =>
      constructor
      · intro h
        simp only [Bool.or_eq_true] at h
        rcases h with h | h
        · exact ⟨0, Nat.zero_le _, by rw [iterParent_zero]; simpa using h⟩
        · rcases (ih docs p y).mp h with ⟨k, hk, hit⟩
          exact ⟨k + 1, by omega, by rw [iterParent_succ, hfx]; exact hit⟩
      · rintro ⟨k, hk, hit⟩
        cases k with
        | zero =>
          rw [iterParent_zero] at hit
          simp [Option.some.inj hit]
        | succ k =>
          rw [iterParent_succ, hfx] at hit
          have := (ih docs p y).mpr ⟨k, by omega, hit⟩
          simp [this]

theorem iterParent_add (docs : Tbl) :
    ∀ (i j : Nat) (x z : String), iterParent docs i x = some z →
      iterParent docs (i + j) x = iterParent docs j z := by
  intro i
  induction i with
  | zero =>
    intro j x z h
    rw [iterParent_zero] at h
    cases h
    rw [Nat.zero_add]
  | succ i ih =>
    intro j x z h
    rw [iterParent_succ] at h
    rw [show i + 1 + j = (i + j) + 1 from by omega, iterParent_succ]
    cases hfx : parentEff docs x with
    | none => rw [hfx] at h; cases h
    | some p =>
      rw [hfx] at h
      exact ih j p z h

theorem iterParent_le_some (docs : Tbl) :
    ∀ (m : Nat) (x y : String), iterParent docs m x = some y →
      ∀ i ≤ m, ∃ z, iterParent docs i x = some z := by
  intro m
  induction m with
  | zero =>
    intro x y h i hi
    interval_cases i
    exact ⟨x, rfl⟩
  | succ m ih =>
    intro x y h i hi
    cases i with
    | zero => exact ⟨x, rfl⟩
    | succ i =>
      rw [iterParent_succ] at h ⊢
      cases hfx : parentEff docs x with
      | none => rw [hfx] at h; cases h
      | some p =>
        rw [hfx] at h
        exact ih p y h i (by omega)

theorem iterParent_interior (docs : Tbl) (m : Nat) (x y : String)
    (h : iterParent docs m x = some y) (i : Nat) (hi : i < m) :
    ∃ z p, iterParent docs i x = some z ∧ parentEff docs z = some p := by
  obtain ⟨z, hz⟩ := iterParent_le_some docs m x y h i (by omega)
  refine ⟨z, ?_⟩
  have h2 : iterParent docs (i + (m - i)) x = iterParent docs (m - i) z :=
    iterParent_add docs i (m - i) x z hz
  rw [show i + (m - i) = m from by omega] at h2
  obtain ⟨k, hk⟩ : ∃ k, m - i = k + 1 := ⟨m - i - 1, by omega⟩
  rw [h, hk, iterParent_succ] at h2
  cases hfz : parentEff docs z with
  | none => rw [hfz] at h2; cases h2
  | some p => exact ⟨p, hz, rfl⟩

theorem chainMemB_bound (docs : Tbl) (n : Nat) (x y : String)
    (h : chainMemB docs n x y = true) : chainMemB docs docs.length x y = true := by
  rcases (chainMemB_iff_iter n docs x y).mp h with ⟨k, _, hit⟩
  have hex : ∃ j, iterParent docs j x = some y := ⟨k, hit⟩
  set k0 := Nat.find hex with hk0
  have hit0 : iterParent docs k0 x = some y := Nat.find_spec hex
  have hmin : ∀ j < k0, ¬ iterParent docs j x = some y := fun j hj => Nat.find_min hex hj
  refine (chainMemB_iff_iter docs.length docs x y).mpr ⟨k0, ?_, hit0⟩
  by_contra hgt
  push_neg at hgt
  have hinj : ∀ i ∈ List.range k0, ∀ j ∈ List.range k0,
      iterParent docs i x = iterParent docs j x → i = j := by
    intro i hi j hj hij
    rw [List.mem_range] at hi hj
    by_contra hne
    rcases Nat.lt_or_ge i j with hlt | hge
    · obtain ⟨u, hu⟩ := iterParent_le_some docs k0 x y hit0 i (by omega)
      have hju : iterParent docs j x = some u := by rw [← hij]; exact hu
      have h1 : iterParent docs (j + (k0 - j)) x = iterParent docs (k0 - j) u :=
        iterParent_add docs j (k0 - j) x u hju
      rw [show j + (k0 - j) = k0 from by omega, hit0] at h1
      have h2 : iterParent docs (i + (k0 - j)) x = iterParent docs (k0 - j) u :=
        iterParent_add docs i (k0 - j) x u hu
      rw [← h1] at h2
      exact hmin (i + (k0 - j)) (by omega) h2
    · have hlt2 : j < i := by omega
      obtain ⟨u, hu⟩ := iterParent_le_some docs k0 x y hit0 j (by omega)
      have hiu : iterParent docs i x = some u := by rw [hij]; exact hu
      have h1 : iterParent docs (i + (k0 - i)) x = iterParent docs (k0 - i) u :=
        iterParent_add docs i (k0 - i) x u hiu
      rw [show i + (k0 - i) = k0 from by omega, hit0] at h1
      have h2 : iterParent docs (j + (k0 - i)) x = iterParent docs (k0 - i) u :=
        iterParent_add docs j (k0 - i) x u hu
      rw [← h1] at h2
      exact hmin (j + (k0 - i)) (by omega) h2
  have hnd : ((List.range k0).map (fun i => iterParent docs i x)).Nodup :=
    List.Nodup.map_on hinj (List.nodup_range k0)
  have hsub : ((List.range k0).map (fun i => iterParent docs i x))
      ⊆ (keys docs).map some := by
    intro o ho
    rcases List.mem_map.mp ho with ⟨i, hi, rfl⟩
    rw [List.mem_range] at hi
    obtain ⟨z, p, hz, hp⟩ := iterParent_interior docs k0 x y hit0 i hi
    rw [hz]
    exact List.mem_map_of_mem some (parentEff_mem_keys docs z p hp)
  have hlen := (List.subperm_of_subset hnd hsub).length_le
  rw [List.length_map, List.length_range, List.length_map] at hlen
  unfold keys at hlen
  rw [List.length_map] at hlen
  omega

theorem chainMemB_refl (docs : Tbl) (x : String) :
    ∀ n, chainMemB docs n x x = true := by
  intro n
  cases n with
  | zero => rw [chainMemB_zero]; simp
  | succ n => rw [chainMemB_succ]; simp

theorem iterParent_reaches (docs : Tbl) :
    ∀ (k : Nat) (x z : String), iterParent docs k x = some z → reaches docs x z := by
  intro k
  induction k with
  | zero =>
    intro x z h
    rw [iterParent_zero] at h
    cases h
    exact Relation.ReflTransGen.refl
  | succ k ih =>
    intro x z h
    rw [iterParent_succ] at h
    cases hfx : parentEff docs x with
    | none => rw [hfx] at h; cases h
    | some p =>
      rw [hfx] at h
      exact Relation.ReflTransGen.head hfx (ih p z h)

theorem chainMemB_sound (docs : Tbl) (n : Nat) (x y : String)
    (h : chainMemB docs n x y = true) : reaches docs x y := by
  rcases (chainMemB_iff_iter n docs x y).mp h with ⟨k, _, hit⟩
  exact iterParent_reaches docs k x y hit

theorem chainMemB_snoc (docs : Tbl) :
    ∀ (n : Nat) (x b c : String), chainMemB docs n x b = true →
      parentEff docs b = some c → chainMemB docs (n + 1) x c = true := by
  intro n
  induction n with
  | zero =>
    intro x b c h hb
    rw [chainMemB_zero] at h
    have hxb : x = b := by simpa using h
    subst hxb
    rw [chainMemB_succ, hb]
    simp [chainMemB_refl]
  | succ n ih =>
    intro x b c h hb
    rw [chainMemB_succ] at h
    simp only [Bool.or_eq_true] at h
    rcases h with h | h
    · have hxb : x = b := by simpa using h
      subst hxb
      rw [chainMemB_succ, hb]
      simp [chainMemB_refl]
    · cases hfx : parentEff docs x with
      | none => rw [hfx] at h; cases h
      | some p =>
        rw [hfx] at h
        rw [chainMemB_succ, hfx]
        simp [ih p b c h hb]

theorem reaches_chainMemB (docs : Tbl) (x y : String) (h : reaches docs x y) :
    ∃ n, chainMemB docs n x y = true := by
  induction h with
  | refl => exact ⟨0, chainMemB_refl docs x 0⟩
  | tail _ hbc ih =>
    rcases ih with ⟨n, hn⟩
    exact ⟨n + 1, chainMemB_snoc docs n x _ _ hn hbc⟩

/-- The executable descendant-or-self test agrees with the parent-chain
closure on every table. -/
theorem reachesB_iff_reaches (docs : Tbl) (x y : String) :
    reachesB docs x y = true ↔ reaches docs x y := by
  constructor
  · intro h
    exact chainMemB_sound docs docs.length x y h
  · intro h
    rcases reaches_chainMemB docs x y h with ⟨n, hn⟩
    exact chainMemB_bound docs n x y hn

theorem reachesB_refl (docs : Tbl) (x : String) : reachesB docs x x = true :=
  chainMemB_refl docs x docs.length

theorem chainMemB_filter_up (docs : Tbl) (q : String × JsDoc → Bool)
    (hnd : (keys docs).Nodup) :
    ∀ (n : Nat) (x y : String), chainMemB (docs.filter q) n x y = true →
      chainMemB docs n x y = true := by
  intro n
  induction n with
  | zero =>
    intro x y h
    rw [chainMemB_zero] at h ⊢
    exact h
  | succ n ih =>
    intro x y h
    rw [chainMemB_succ] at h ⊢
    simp only [Bool.or_eq_true] at h ⊢
    rcases h with h | h
    · exact Or.inl h
    · cases hfx : parentEff (docs.filter q) x with
      | none => rw [hfx] at h; cases h
      | some p =>
        rw [hfx] at h
        rw [parentEff_filter docs q hnd x p hfx]
        exact Or.inr (ih p y h)

theorem reachesB_filter_up (docs : Tbl) (q : String × JsDoc → Bool)
    (hnd : (keys docs).Nodup) (x y : String)
    (h : reachesB (docs.filter q) x y = true) : reachesB docs x y = true :=
  chainMemB_bound docs _ x y (chainMemB_filter_up docs q hnd _ x y h)

theorem reaches_filter_up (docs : Tbl) (q : String × JsDoc → Bool)
    (hnd : (keys docs).Nodup) (x y : String)
    (h : reaches (docs.filter q) x y) : reaches docs x y :=
  Relation.ReflTransGen.mono (fun a b hab => parentEff_filter docs q hnd a b hab) h

/-! Lemmas for the cascade-delete claim: determinism of the parent walk,
sibling-subtree disjointness, and survival of chains in filtered tables. -/

theorem reaches_total (docs : Tbl) (x a b : String)
    (hxa : reaches docs x a) (hxb : reaches docs x b) :
    reaches docs a b ∨ reaches docs b a := by
  induction hxa using Relation.ReflTransGen.head_induction_on with
  | refl => exact Or.inl hxb
  | head hstep htail ih =>
    rename_i x' c
    rcases Relation.ReflTransGen.cases_head hxb with hb | ⟨w, hw, hwb⟩
    · subst hb
      exact Or.inr (Relation.ReflTransGen.head hstep htail)
    · have hwc : w = c := by
        have := hstep
        unfold stepRel at this hw
        rw [this] at hw
        exact (Option.some.inj hw).symm
      subst hwc
      exact ih hwb

theorem not_reaches_sibling (docs : Tbl) (y a b : String)
    (hac : AcyclicT docs) (ha : stepRel docs a y) (hb : stepRel docs b y)
    (hne : ¬ a = b) : ¬ reaches docs a b := by
  intro hr
  rcases Relation.ReflTransGen.cases_head hr with hab | ⟨w, hw, hwb⟩
  · exact hne hab
  · have hwy : w = y := by
      unfold stepRel at ha hw
      rw [ha] at hw
      exact (Option.some.inj hw).symm
    rw [hwy] at hwb
    exact hac y (Relation.TransGen.tail' hwb hb)

theorem not_cross_sibling (docs : Tbl) (y a b z : String)
    (hac : AcyclicT docs) (ha : stepRel docs a y) (hb : stepRel docs b y)
    (hne : ¬ a = b) (hza : reaches docs z a) (hzb : reaches docs z b) : False := by
  rcases reaches_total docs z a b hza hzb with h | h
  · exact not_reaches_sibling docs y a b hac ha hb hne h
  · exact not_reaches_sibling docs y b a hac hb ha (fun hh => hne hh.symm) h

theorem reaches_filter_down (docs : Tbl) (q : String × JsDoc → Bool)
    (hnd : (keys docs).Nodup) (y : String)
    (hkeep : ∀ z d, lookupKey z docs = some d → reaches docs z y → q (z, d) = true) :
    ∀ x, reaches docs x y → reaches (docs.filter q) x y := by
  intro x hx
  induction hx using Relation.ReflTransGen.head_induction_on with
  | refl => exact Relation.ReflTransGen.refl
  | head hstep htail ih =>
    rename_i x' c
    have hx'y : reaches docs x' y := Relation.ReflTransGen.head hstep htail
    rcases (parentEff_some_iff docs x' c).mp hstep with ⟨d, hd, hpar⟩
    have hq := hkeep x' d hd hx'y
    have hstepf : stepRel (docs.filter q) x' c :=
      parentEff_filter_of_kept docs q hnd x' c d hd hq hstep
    exact Relation.ReflTransGen.head hstepf ih

theorem countP_lt_of {α : Type} :
    ∀ (l : List α) (p q : α → Bool), (∀ x ∈ l, p x = true → q x = true) →
      ∀ x0 ∈ l, q x0 = true → p x0 = false → l.countP p < l.countP q := by
  intro l
  induction l with
  | nil => intro p q _ x0 h0; cases h0
  | cons a r ih =>
    intro p q himp x0 h0 hq0 hp0
    rw [List.countP_cons, List.countP_cons]
    have himpr : ∀ x ∈ r, p x = true → q x = true :=
      fun x hx => himp x (List.mem_cons_of_mem a hx)
    have hmono : r.countP p ≤ r.countP q :=
      List.countP_mono_left himpr
    rcases List.mem_cons.mp h0 with rfl | hr
    · rw [hp0, hq0, if_neg (by decide), if_pos (by decide)]
      omega
    · have hlt := ih p q himpr x0 hr hq0 hp0
      by_cases hpa : p a = true
      · rw [hpa, himp a (List.mem_cons_self a r) hpa, if_pos (by decide)]
        omega
      · have hpa2 : p a = false := by
          cases hpc : p a with
          | true => exact absurd hpc hpa
          | false => rfl
        rw [hpa2, if_neg (by decide)]
        by_cases hqa : q a = true
        · rw [hqa, if_pos (by decide)]
          omega
        · have hqa2 : q a = false := by
            cases hqc : q a with
            | true => exact absurd hqc hqa
            | false => rfl
          rw [hqa2, if_neg (by decide)]
          omega

theorem child_step (docs : Tbl) (y : String) (c : String × JsDoc)
    (hwf : WfTable docs) (hc : c ∈ docs) (hpar : c.2.parentId = some (some y)) :
    stepRel docs c.1 y := by
  have hl : lookupKey c.1 docs = some c.2 := lookupKey_eq_of_mem docs c hwf.1 hc
  exact (parentEff_some_iff docs c.1 y).mpr ⟨c.2, hl, hpar⟩

theorem mem_children_iff (docs : Tbl) (y : String) (c : String × JsDoc) :
    c ∈ docs.filter (fun e => e.2.parentId = some (some y)) ↔
      c ∈ docs ∧ c.2.parentId = some (some y) := by
  rw [List.mem_filter]
  simp

theorem deleteRecF_succ (f : Nat) (docs : Tbl) (y : String) :
    deleteRecF (f + 1) docs y =
      eraseKey y ((docs.filter (fun e => e.2.parentId = some (some y))).foldl
        (fun acc c => match c.2.id with
          | some cid => deleteRecF f acc cid
          | none => acc) docs) := rfl

theorem eraseKey_eq_filter (k : String) (l : Tbl) :
    eraseKey k l = l.filter (fun e => !(e.1 = k)) := rfl

theorem deleteRec_fold (n : Nat) (docs : Tbl) (y : String)
    (hwf : WfTable docs) (hac : AcyclicT docs) (hy : y ∈ keys docs)
    (hm : docs.countP (fun e => reachesB docs e.1 y) ≤ n + 1)
    (ih : ∀ (docs2 : Tbl) (y2 : String), WfTable docs2 → AcyclicT docs2 →
      y2 ∈ keys docs2 → docs2.countP (fun e => reachesB docs2 e.1 y2) ≤ n →
      deleteRecF (n + 1) docs2 y2 = docs2.filter (fun e => !(reachesB docs2 e.1 y2))) :
    ∀ (todo done : List (String × JsDoc)),
      done ++ todo = docs.filter (fun e => e.2.parentId = some (some y)) →
      List.foldl (fun acc c => match c.2.id with
          | some cid => deleteRecF (n + 1) acc cid
          | none => acc)
        (docs.filter (fun e => !(done.any (fun c => reachesB docs e.1 c.1)))) todo
      = docs.filter (fun e => !((done ++ todo).any (fun c => reachesB docs e.1 c.1))) := by
  intro todo
  induction todo with
  | nil =>
    intro done _
    rw [List.append_nil]
    rfl
  | cons c todo2 ih2 =>
    intro done happ
    have hcch : c ∈ docs.filter (fun e => e.2.parentId = some (some y)) := by
      rw [← happ]
      exact List.mem_append_right done (List.mem_cons_self c todo2)
    have hcdocs : c ∈ docs := (List.mem_filter.mp hcch).1
    have hcpar : c.2.parentId = some (some y) := by
      have := (List.mem_filter.mp hcch).2
      simpa using this
    have hcstep : stepRel docs c.1 y := child_step docs y c hwf hcdocs hcpar
    have hcid : c.2.id = some c.1 := hwf.2 c hcdocs
    have hdonech : ∀ c2 ∈ done, c2 ∈ docs ∧ c2.2.parentId = some (some y) := by
      intro c2 hc2
      have : c2 ∈ docs.filter (fun e => e.2.parentId = some (some y)) := by
        rw [← happ]
        exact List.mem_append_left _ hc2
      exact (mem_children_iff docs y c2).mp this
    have hdonestep : ∀ c2 ∈ done, stepRel docs c2.1 y :=
      fun c2 hc2 => child_step docs y c2 hwf (hdonech c2 hc2).1 (hdonech c2 hc2).2
    have hndk : (keys (docs.filter (fun e => e.2.parentId = some (some y)))).Nodup :=
      nodup_keys_filter docs _ hwf.1
    have hdiff : ∀ c2 ∈ done, ¬ c2.1 = c.1 := by
      intro c2 hc2 heq
      rw [← happ] at hndk
      unfold keys at hndk
      rw [List.map_append, List.map_cons] at hndk
      rcases List.nodup_append.mp hndk with ⟨_, _, hdisj⟩
      exact hdisj (List.mem_map_of_mem Prod.fst hc2)
        (by rw [heq]; exact List.mem_cons_self _ _)
    have hkeep : ∀ z d, lookupKey z docs = some d → reaches docs z c.1 →
        (!(done.any (fun c2 => reachesB docs z c2.1))) = true := by
      intro z d _ hzc
      cases hanyc : done.any (fun c2 => reachesB docs z c2.1) with
      | false => rfl
      | true =>
        exfalso
        rcases List.any_eq_true.mp hanyc with ⟨c2, hc2, hrb⟩
        exact not_cross_sibling docs y c2.1 c.1 z hac (hdonestep c2 hc2) hcstep
          (hdiff c2 hc2) ((reachesB_iff_reaches docs z c2.1).mp hrb) hzc
    have hwfA : WfTable (docs.filter (fun e => !(done.any (fun c2 => reachesB docs e.1 c2.1)))) :=
      wfTable_filter docs _ hwf
    have hacA : AcyclicT (docs.filter (fun e => !(done.any (fun c2 => reachesB docs e.1 c2.1)))) :=
      acyclicT_filter docs _ hwf.1 hac
    have hcA : c ∈ docs.filter (fun e => !(done.any (fun c2 => reachesB docs e.1 c2.1))) :=
      List.mem_filter.mpr ⟨hcdocs,
        hkeep c.1 c.2 (lookupKey_eq_of_mem docs c hwf.1 hcdocs) Relation.ReflTransGen.refl⟩
    have hkeyA : c.1 ∈ keys (docs.filter (fun e => !(done.any (fun c2 => reachesB docs e.1 c2.1)))) :=
      List.mem_map_of_mem Prod.fst hcA
    have hup : ∀ x z : String,
        reaches (docs.filter (fun e => !(done.any (fun c2 => reachesB docs e.1 c2.1)))) x z →
        reaches docs x z :=
      fun x z hx => reaches_filter_up docs _ hwf.1 x z hx
    have hmA : (docs.filter (fun e => !(done.any (fun c2 => reachesB docs e.1 c2.1)))).countP
        (fun e => reachesB (docs.filter (fun e2 => !(done.any (fun c2 => reachesB docs e2.1 c2.1)))) e.1 c.1) ≤ n := by
      rw [List.countP_filter]
      have h2 : docs.countP (fun e =>
          reachesB (docs.filter (fun e2 => !(done.any (fun c2 => reachesB docs e2.1 c2.1)))) e.1 c.1 &&
            !(done.any (fun c2 => reachesB docs e.1 c2.1)))
          < docs.countP (fun e => reachesB docs e.1 y) := by
        obtain ⟨dy, hdy⟩ := lookupKey_isSome_of_mem_keys docs y hy
        have hymem : (y, dy) ∈ docs := lookupKey_mem y docs dy hdy
        refine countP_lt_of docs _ _ ?_ (y, dy) hymem ?_ ?_
        · intro e _ hpe
          simp only [Bool.and_eq_true] at hpe
          have hreA := (reachesB_iff_reaches _ e.1 c.1).mp hpe.1
          have hre : reaches docs e.1 c.1 := hup e.1 c.1 hreA
          exact (reachesB_iff_reaches docs e.1 y).mpr
            (Relation.ReflTransGen.tail hre hcstep)
        · exact (reachesB_iff_reaches docs y y).mpr Relation.ReflTransGen.refl
        · cases hrb : reachesB (docs.filter
              (fun e2 => !(done.any (fun c2 => reachesB docs e2.1 c2.1)))) y c.1 with
          | false => simp [hrb]
          | true =>
            exfalso
            have hr := hup y c.1 ((reachesB_iff_reaches _ y c.1).mp hrb)
            exact hac y (Relation.TransGen.tail' hr hcstep)
      omega
    have hrec := ih (docs.filter (fun e => !(done.any (fun c2 => reachesB docs e.1 c2.1))))
      c.1 hwfA hacA hkeyA hmA
    show List.foldl (fun acc c2 => match c2.2.id with
        | some cid => deleteRecF (n + 1) acc cid
        | none => acc)
      (match c.2.id with
        | some cid => deleteRecF (n + 1)
            (docs.filter (fun e => !(done.any (fun c2 => reachesB docs e.1 c2.1)))) cid
        | none => docs.filter (fun e => !(done.any (fun c2 => reachesB docs e.1 c2.1)))) todo2
      = docs.filter (fun e => !((done ++ c :: todo2).any (fun c2 => reachesB docs e.1 c2.1)))
    rw [hcid]
    show List.foldl (fun acc c2 => match c2.2.id with
        | some cid => deleteRecF (n + 1) acc cid
        | none => acc)
      (deleteRecF (n + 1)
        (docs.filter (fun e => !(done.any (fun c2 => reachesB docs e.1 c2.1)))) c.1) todo2
      = docs.filter (fun e => !((done ++ c :: todo2).any (fun c2 => reachesB docs e.1 c2.1)))
    rw [hrec]
    have hAB : (docs.filter (fun e => !(done.any (fun c2 => reachesB docs e.1 c2.1)))).filter
        (fun e => !(reachesB (docs.filter
          (fun e2 => !(done.any (fun c2 => reachesB docs e2.1 c2.1)))) e.1 c.1))
        = docs.filter (fun e => !((done ++ [c]).any (fun c2 => reachesB docs e.1 c2.1))) := by
      rw [List.filter_filter]
      refine List.filter_congr ?_
      intro e he
      simp only [List.any_append, List.any_cons, List.any_nil, Bool.or_false]
      cases hany : done.any (fun c2 => reachesB docs e.1 c2.1) with
      | true => simp [hany]
      | false =>
        simp only [hany, Bool.or_false, Bool.not_false, Bool.and_true, Bool.false_or]
        have heq : reachesB (docs.filter
            (fun e2 => !(done.any (fun c2 => reachesB docs e2.1 c2.1)))) e.1 c.1
            = reachesB docs e.1 c.1 := by
          rw [Bool.eq_iff_iff, reachesB_iff_reaches, reachesB_iff_reaches]
          constructor
          · exact hup e.1 c.1
          · intro hr
            exact reaches_filter_down docs _ hwf.1 c.1
              (fun z d hld hzc => hkeep z d hld hzc) e.1 hr
        rw [heq]
    rw [hAB]
    have happ2 : (done ++ [c]) ++ todo2 = docs.filter (fun e => e.2.parentId = some (some y)) := by
      rw [List.append_assoc]
      simpa using happ
    have hfin := ih2 (done ++ [c]) happ2
    rw [hfin, List.append_assoc, List.singleton_append]

theorem deleteRecF_spec :
    ∀ (n : Nat) (docs : Tbl) (y : String), WfTable docs → AcyclicT docs →
      y ∈ keys docs → docs.countP (fun e => reachesB docs e.1 y) ≤ n →
      deleteRecF (n + 1) docs y = docs.filter (fun e => !(reachesB docs e.1 y)) := by
  intro n
  induction n with
  | zero =>
    intro docs y _ _ hy hm
    exfalso
    obtain ⟨dy, hdy⟩ := lookupKey_isSome_of_mem_keys docs y hy
    have hymem : (y, dy) ∈ docs := lookupKey_mem y docs dy hdy
    have hpos : 0 < docs.countP (fun e => reachesB docs e.1 y) :=
      List.countP_pos.mpr ⟨(y, dy), hymem, reachesB_refl docs y⟩
    omega
  | succ n ih =>
    intro docs y hwf hac hy hm
    rw [deleteRecF_succ]
    have hfold := deleteRec_fold n docs y hwf hac hy hm ih
      (docs.filter (fun e => e.2.parentId = some (some y))) [] (by rw [List.nil_append])
    rw [List.nil_append] at hfold
    have h0 : docs.filter
        (fun e => !(List.any ([] : List (String × JsDoc))
          (fun c => reachesB docs e.1 c.1))) = docs := by
      simp
    rw [h0] at hfold
    rw [hfold, eraseKey_eq_filter, List.filter_filter]
    refine List.filter_congr ?_
    intro e he
    have hiff : reachesB docs e.1 y = true ↔
        (e.1 = y ∨ (docs.filter (fun e2 => e2.2.parentId = some (some y))).any
          (fun c => reachesB docs e.1 c.1) = true) := by
      rw [reachesB_iff_reaches]
      constructor
      · intro hr
        rcases Relation.ReflTransGen.cases_tail hr with hr1 | ⟨z, hz, hstepz⟩
        · exact Or.inl hr1.symm
        · right
          rcases (parentEff_some_iff docs z y).mp hstepz with ⟨d, hld, hpar⟩
          have hzmem : (z, d) ∈ docs := lookupKey_mem z docs d hld
          refine List.any_eq_true.mpr ⟨(z, d), ?_, ?_⟩
          · exact List.mem_filter.mpr ⟨hzmem, by simpa using hpar⟩
          · exact (reachesB_iff_reaches docs e.1 z).mpr hz
      · intro h
        rcases h with h | h
        · exact h ▸ Relation.ReflTransGen.refl
        · rcases List.any_eq_true.mp h with ⟨c, hcmem, hcrb⟩
          have hcin := (mem_children_iff docs y c).mp hcmem
          have hcstep : stepRel docs c.1 y := child_step docs y c hwf hcin.1 hcin.2
          exact Relation.ReflTransGen.tail
            ((reachesB_iff_reaches docs e.1 c.1).mp hcrb) hcstep
    cases hrb : reachesB docs e.1 y with
    | true =>
      rcases hiff.mp hrb with h | h
      · simp [h]
      · simp [h]
    | false =>
      have h1 : (decide (e.1 = y)) = false := by
        cases hd : decide (e.1 = y) with
        | false => rfl
        | true =>
          have := hiff.mpr (Or.inl (of_decide_eq_true hd))
          rw [hrb] at this
          cases this
      have h2 : (docs.filter (fun e2 => e2.2.parentId = some (some y))).any
          (fun c => reachesB docs e.1 c.1) = false := by
        cases ha : (docs.filter (fun e2 => e2.2.parentId = some (some y))).any
            (fun c => reachesB docs e.1 c.1) with
        | false => rfl
        | true =>
          have := hiff.mpr (Or.inr ha)
          rw [hrb] at this
          cases this
      simp [h1, h2]

/-- C3: on a well-formed acyclic table, `deleteDocument id` removes exactly
the entries whose parent chain leads to `id` (the id itself and all
transitive descendants), leaving every other entry unchanged and in order;
the executable chain test agrees with the closure of the parent relation;
and no surviving entry's `parentId` references a removed document. -/
theorem C3_cascade_delete (s : EditorState) (id : String)
    (hwf : WfTable s.documents) (hac : AcyclicT s.documents)
    (hid : id ∈ keys s.documents) :
    (deleteDocument id s).documents
      = s.documents.filter (fun e => !(reachesB s.documents e.1 id)) ∧
    (∀ x y, reachesB s.documents x y = true ↔ reaches s.documents x y) ∧
    (∀ e ∈ (deleteDocument id s).documents, ∀ p, e.2.parentId = some (some p) →
      p ∈ keys s.documents → p ∈ keys (deleteDocument id s).documents) := by
  have hdocs : (deleteDocument id s).documents
      = deleteRecF (s.documents.length + 1) s.documents id := rfl
  have hspec := deleteRecF_spec s.documents.length s.documents id hwf hac hid
    (List.countP_le_length _)
  refine ⟨by rw [hdocs]; exact hspec, fun x y => reachesB_iff_reaches s.documents x y, ?_⟩
  intro e he p hpar hpk
  rw [hdocs, hspec] at he
  rcases List.mem_filter.mp he with ⟨hedocs, hekeep⟩
  obtain ⟨dp, hdp⟩ := lookupKey_isSome_of_mem_keys s.documents p hpk
  have hpmem : (p, dp) ∈ s.documents := lookupKey_mem p s.documents dp hdp
  have hstepe : stepRel s.documents e.1 p := by
    have hle : lookupKey e.1 s.documents = some e.2 :=
      lookupKey_eq_of_mem _ e hwf.1 hedocs
    exact (parentEff_some_iff _ e.1 p).mpr ⟨e.2, hle, hpar⟩
  have hpr : reachesB s.documents p id = false := by
    cases hc : reachesB s.documents p id with
    | false => rfl
    | true =>
      exfalso
      have hre : reaches s.documents e.1 id :=
        Relation.ReflTransGen.head hstepe ((reachesB_iff_reaches _ p id).mp hc)
      have hrb := (reachesB_iff_reaches _ e.1 id).mpr hre
      simp [hrb] at hekeep
  have hpfil : (p, dp) ∈ (deleteDocument id s).documents := by
    rw [hdocs, hspec]
    exact List.mem_filter.mpr ⟨hpmem, by simp [hpr]⟩
  exact List.mem_map_of_mem Prod.fst hpfil

theorem acyclicT_of_rank (docs : Tbl) (rank : String → Nat)
    (h : ∀ a b, stepRel docs a b → rank b < rank a) : AcyclicT docs := by
  have ht : ∀ a b, Relation.TransGen (stepRel docs) a b → rank b < rank a := by
    intro a b htg
    induction htg with
    | single hs => exact h _ _ hs
    | tail _ hs ihr => exact lt_trans (h _ _ hs) ihr
  intro x hx
  exact lt_irrefl _ (ht x x hx)

theorem exC3_step_rank (a b : String) (h : stepRel exC3State.documents a b) :
    exC3Rank b < exC3Rank a := by
  have hkey : a ∈ keys exC3State.documents := parentEff_mem_keys _ a b h
  have hkey2 : a ∈ ["a", "b", "c", "d"] := by
    simpa [exC3State, exC3Tbl, keys] using hkey
  unfold stepRel at h
  fin_cases hkey2
  · rw [show parentEff exC3State.documents "a" = none from by decide] at h
    cases h
  · rw [show parentEff exC3State.documents "b" = some "a" from by decide] at h
    cases h
    decide
  · rw [show parentEff exC3State.documents "c" = some "b" from by decide] at h
    cases h
    decide
  · rw [show parentEff exC3State.documents "d" = none from by decide] at h
    cases h

theorem exC3_acyclic : AcyclicT exC3State.documents :=
  acyclicT_of_rank _ exC3Rank exC3_step_rank

/-- Witness for `C3_cascade_delete` on the four-document forest: deleting
`b` removes exactly `b` and its descendant `c`, keeps `a` and `d`
unchanged, and the surviving entries have no dangling parent
references. -/
theorem C3_cascade_delete_witness :
    WfTable exC3State.documents ∧
    "b" ∈ keys exC3State.documents ∧
    (deleteDocument "b" exC3State).documents
      = exC3State.documents.filter
          (fun e => !(reachesB exC3State.documents e.1 "b")) ∧
    (deleteDocument "b" exC3State).documents
      = [("a", { id := some "a", parentId := some none }),
         ("d", { id := some "d", parentId := some none })] ∧
    reachesB exC3State.documents "c" "b" = true ∧
    reachesB exC3State.documents "a" "b" = false := by
  have hwf : WfTable exC3State.documents := ⟨by decide, by decide⟩
  have h := C3_cascade_delete exC3State "b" hwf exC3_acyclic (by decide)
  exact ⟨hwf, by decide, h.1, by decide, by decide, by decide⟩

end TEdit
